import Mathlib

/-!
# Pseudo-legal move generation of `chess/moves.go`

A shallow embedding of the move generator of the `chess` package and the
properties of it that the specification states.

Conventions of the embedding

* Go `int` is `Int`.  Every arithmetic expression of `moves.go` is either
  guarded by a successful board access (so one operand lies in `[0, 8)`) or is
  a probe coordinate that is range-checked before use, so no 64-bit wrap-around
  can turn an off-board coordinate into an on-board one.
* A Go run-time panic on an out-of-range array index is the result
  `Except.error Fault.indexOutOfRange`; every function that indexes
  `b.Spaces` therefore returns in `Except Fault`.  The explicit `panic` of
  `PossibleMoves` is `Except.error Fault.invalidPiece`.
* The `for { ... }` loop of `lineMove` has no bound in the source.  It is
  embedded with an explicit iteration budget (`fuel`); running out of it is
  `Except.error Fault.fuelExhausted`.  The theorems show that a budget of 8
  always suffices for a non-zero direction.
* A Go slice is a `List`; `append(s, x)` is `s ++ [x]`.
-/

namespace Chess

/-! ## Data model -/

/-- Ways in which the embedded code can fail to return a value. -/
inductive Fault where
  | indexOutOfRange
  | invalidPiece
  | fuelExhausted
  deriving DecidableEq, Repr

deriving instance DecidableEq for Except

/-- Modelled from the spec: the type `Color` is declared outside `moves.go`;
the spec gives the closed enumeration of the two sides (First = White,
Second = Black).  `moves.go` names only `WhiteTeam`. -/
inductive Color where
  | WhiteTeam
  | BlackTeam
  deriving DecidableEq, Repr

/-- Modelled from the spec: the type `Rank` is declared outside `moves.go`;
the spec gives the closed enumeration of piece kinds. -/
inductive Rank where
  | Empty
  | Pawn
  | Knight
  | Bishop
  | Rook
  | Queen
  | King
  deriving DecidableEq, Repr

/-- Modelled from the spec: the type `Piece` (the content of one board cell) is
declared outside `moves.go`, which reads its fields `Rank`, `Color` and
`EnPassantable`. -/
structure Piece where
  Rank : Rank
  Color : Color
  EnPassantable : Bool
  deriving DecidableEq, Repr

/-- Modelled from the spec: the constant `Size` is declared outside `moves.go`;
the board is 8 by 8. -/
abbrev Size : Int := 8

/-- Modelled from the spec: the type `Board` is declared outside `moves.go`,
which reads `b.Spaces[row][col]`; an 8 by 8 grid of cells, row-major. -/
structure Board where
  Spaces : Fin 8 → Fin 8 → Piece

/-- Modelled from the spec: the type `Coord` is declared outside `moves.go`,
which builds it positionally as `Coord{row, col}`. -/
structure Coord where
  Row : Int
  Col : Int
  deriving DecidableEq, Repr

/-- The struct `ValidMove` of `moves.go`: a possible move that has not
necessarily been made. -/
structure ValidMove where
  From : Coord
  To : Coord
  Capture : Bool
  EnPassant : Bool
  deriving DecidableEq, Repr

/-- The Go expression `b.Spaces[row][col]` with `int` indices: the cell when
both indices are in range, a panic otherwise. -/
def Board.index (b : Board) (row col : Int) : Except Fault Piece :=
  if h : 0 ≤ row ∧ row < Size ∧ 0 ≤ col ∧ col < Size then
    .ok (b.Spaces ⟨row.toNat, by have := h.1; have := h.2.1; simp only [Size] at *; omega⟩
      ⟨col.toNat, by have := h.2.2.1; have := h.2.2.2; simp only [Size] at *; omega⟩)
  else
    .error .indexOutOfRange

/-! ## The functions of `moves.go` -/

/-- The function `tryMove`: the pair `(valid, capture)` for a piece of colour
`pieceColor` stepping onto `(row, col)`. -/
def tryMove (b : Board) (pieceColor : Color) (row col : Int) : Except Fault (Bool × Bool) :=
  if row < 0 ∨ row ≥ Size ∨ col < 0 ∨ col ≥ Size then
    pure (false, false)
  else do
    let target ← b.index row col
    if target.Rank = Rank.Empty then
      -- Valid move to empty square.
      pure (true, false)
    else if target.Color ≠ pieceColor then
      -- Enemy Piece captured.
      pure (true, true)
    else
      pure (false, false)

/-- The body of the `for` loop of `lineMove`, run at most `fuel` times.
`toRow`, `toCol` and `possible` are the loop-carried variables. -/
def lineMoveLoop (b : Board) (color : Color) (row col rowDiff colDiff : Int) :
    Nat → Int → Int → List ValidMove → Except Fault (List ValidMove)
  | 0, _, _, _ => .error .fuelExhausted
  | fuel + 1, toRow, toCol, possible => do
    let toRow := toRow + rowDiff
    let toCol := toCol + colDiff
    let (valid, capture) ← tryMove b color toRow toCol
    if !valid then
      pure possible
    else if capture then
      pure (possible ++ [⟨⟨row, col⟩, ⟨toRow, toCol⟩, capture, false⟩])
    else
      lineMoveLoop b color row col rowDiff colDiff fuel toRow toCol
        (possible ++ [⟨⟨row, col⟩, ⟨toRow, toCol⟩, capture, false⟩])

/-- The function `lineMove`: the moves along one ray from `(row, col)`. -/
def lineMove (fuel : Nat) (b : Board) (row col rowDiff colDiff : Int) :
    Except Fault (List ValidMove) := do
  let color := (← b.index row col).Color
  lineMoveLoop b color row col rowDiff colDiff fuel row col []

/-- The function `tryAndAppend`: one probe at a fixed offset. -/
def tryAndAppend (vm : List ValidMove) (b : Board) (row col rowDiff colDiff : Int) :
    Except Fault (List ValidMove) := do
  let color := (← b.index row col).Color
  let (valid, capture) ← tryMove b color (row + rowDiff) (col + colDiff)
  if valid then
    pure (vm ++ [⟨⟨row, col⟩, ⟨row + rowDiff, col + colDiff⟩, capture, false⟩])
  else
    pure vm

/-- The function `RookMoves`. -/
def RookMoves (fuel : Nat) (b : Board) (row col : Int) : Except Fault (List ValidMove) := do
  let mut possible : List ValidMove := []
  possible := possible ++ (← lineMove fuel b row col (-1) 0) -- up
  possible := possible ++ (← lineMove fuel b row col 1 0) -- down
  possible := possible ++ (← lineMove fuel b row col 0 (-1)) -- left
  possible := possible ++ (← lineMove fuel b row col 0 1) -- right
  return possible

/-- The function `BishopMoves`. -/
def BishopMoves (fuel : Nat) (b : Board) (row col : Int) : Except Fault (List ValidMove) := do
  let mut possible : List ValidMove := []
  possible := possible ++ (← lineMove fuel b row col (-1) (-1)) -- up-left
  possible := possible ++ (← lineMove fuel b row col (-1) 1) -- up-right
  possible := possible ++ (← lineMove fuel b row col 1 (-1)) -- down-left
  possible := possible ++ (← lineMove fuel b row col 1 1) -- down-right
  return possible

/-- The function `QueenMoves`. -/
def QueenMoves (fuel : Nat) (b : Board) (row col : Int) : Except Fault (List ValidMove) := do
  let mut possible : List ValidMove := []
  possible := possible ++ (← lineMove fuel b row col (-1) 0) -- up
  possible := possible ++ (← lineMove fuel b row col 1 0) -- down
  possible := possible ++ (← lineMove fuel b row col 0 (-1)) -- left
  possible := possible ++ (← lineMove fuel b row col 0 1) -- right
  possible := possible ++ (← lineMove fuel b row col (-1) (-1)) -- up-left
  possible := possible ++ (← lineMove fuel b row col (-1) 1) -- up-right
  possible := possible ++ (← lineMove fuel b row col 1 (-1)) -- down-left
  possible := possible ++ (← lineMove fuel b row col 1 1) -- down-right
  return possible

/-- The function `KnightMoves`. -/
def KnightMoves (b : Board) (row col : Int) : Except Fault (List ValidMove) := do
  let mut possible : List ValidMove := []
  possible ← tryAndAppend possible b row col (-2) (-1) -- up-left
  possible ← tryAndAppend possible b row col (-2) 1 -- up-right
  possible ← tryAndAppend possible b row col 2 (-1) -- down-left
  possible ← tryAndAppend possible b row col 2 1 -- down-right
  possible ← tryAndAppend possible b row col (-1) (-2) -- left-up
  possible ← tryAndAppend possible b row col 1 (-2) -- left-down
  possible ← tryAndAppend possible b row col (-1) 2 -- right-up
  possible ← tryAndAppend possible b row col 1 2 -- right-down
  return possible

/-- The function `KingMoves`. -/
def KingMoves (b : Board) (row col : Int) : Except Fault (List ValidMove) := do
  let mut possible : List ValidMove := []
  possible ← tryAndAppend possible b row col (-1) 0 -- up
  possible ← tryAndAppend possible b row col 1 0 -- down
  possible ← tryAndAppend possible b row col 0 (-1) -- left
  possible ← tryAndAppend possible b row col 0 1 -- right
  possible ← tryAndAppend possible b row col (-1) (-1) -- up-left
  possible ← tryAndAppend possible b row col (-1) 1 -- up-right
  possible ← tryAndAppend possible b row col 1 (-1) -- down-left
  possible ← tryAndAppend possible b row col 1 1 -- down-right
  return possible

/-- The function `PawnMoves`.  A Go statement `if c { possible = append(possible, m) }`
is the assignment `possible := if c then possible ++ [m] else possible`; the
short-circuit `&&` of the two en-passant conditions is a nested `if`, so that
the neighbouring cell is read only when its column is in range. -/
def PawnMoves (b : Board) (row col : Int) : Except Fault (List ValidMove) := do
  let mut possible : List ValidMove := []
  let color := (← b.index row col).Color
  if color = Color.WhiteTeam then
    -- move up (+)
    let (valid, _) ← tryMove b color (row + 1) col
    possible := if valid then
      possible ++ [⟨⟨row, col⟩, ⟨row + 1, col⟩, false, false⟩] else possible
    let (valid, capture) ← tryMove b color (row + 1) (col - 1) -- left capture
    possible := if valid && capture then
      possible ++ [⟨⟨row, col⟩, ⟨row + 1, col - 1⟩, true, false⟩] else possible
    let (valid, capture) ← tryMove b color (row + 1) (col + 1) -- right capture
    possible := if valid && capture then
      possible ++ [⟨⟨row, col⟩, ⟨row + 1, col + 1⟩, true, false⟩] else possible
    if row = 1 then -- double move from starting row
      let (valid, capture) ← tryMove b color (row + 2) col
      possible := if valid && !capture then
        possible ++ [⟨⟨row, col⟩, ⟨row + 2, col⟩, true, false⟩] else possible
    if col + 1 < Size then
      if (← b.index row (col + 1)).EnPassantable then
        let (valid, capture) ← tryMove b color (row + 1) (col + 1)
        possible := if valid && !capture then
          possible ++ [⟨⟨row, col⟩, ⟨row + 1, col + 1⟩, false, true⟩] else possible
    if col - 1 ≥ 0 then
      if (← b.index row (col - 1)).EnPassantable then
        let (valid, capture) ← tryMove b color (row + 1) (col - 1)
        possible := if valid && !capture then
          possible ++ [⟨⟨row, col⟩, ⟨row + 1, col - 1⟩, false, true⟩] else possible
  else
    -- move down (-)
    let (valid, _) ← tryMove b color (row - 1) col
    possible := if valid then
      possible ++ [⟨⟨row, col⟩, ⟨row - 1, col⟩, false, false⟩] else possible
    let (valid, capture) ← tryMove b color (row - 1) (col - 1) -- left capture
    possible := if valid && capture then
      possible ++ [⟨⟨row, col⟩, ⟨row - 1, col - 1⟩, true, false⟩] else possible
    let (valid, capture) ← tryMove b color (row - 1) (col + 1) -- right capture
    possible := if valid && capture then
      possible ++ [⟨⟨row, col⟩, ⟨row - 1, col + 1⟩, true, false⟩] else possible
    if row = 6 then -- double move from starting row
      let (valid, capture) ← tryMove b color (row - 2) col
      possible := if valid && !capture then
        possible ++ [⟨⟨row, col⟩, ⟨row - 2, col⟩, true, false⟩] else possible
    if col + 1 < Size then
      if (← b.index row (col + 1)).EnPassantable then
        let (valid, capture) ← tryMove b color (row - 1) (col + 1)
        possible := if valid && !capture then
          possible ++ [⟨⟨row, col⟩, ⟨row + 1, col + 1⟩, false, true⟩] else possible
    if col - 1 ≥ 0 then
      if (← b.index row (col - 1)).EnPassantable then
        let (valid, capture) ← tryMove b color (row - 1) (col - 1)
        possible := if valid && !capture then
          possible ++ [⟨⟨row, col⟩, ⟨row + 1, col - 1⟩, false, true⟩] else possible
  return possible

/-- The function `PossibleMoves`: dispatch on the rank of the piece `p`. -/
def PossibleMoves (fuel : Nat) (b : Board) (p : Piece) (row col : Int) :
    Except Fault (List ValidMove) :=
  match p.Rank with
  | Rank.King => KingMoves b row col
  | Rank.Queen => QueenMoves fuel b row col
  | Rank.Bishop => BishopMoves fuel b row col
  | Rank.Knight => KnightMoves b row col
  | Rank.Rook => RookMoves fuel b row col
  | Rank.Pawn => PawnMoves b row col
  | _ => .error .invalidPiece

/-! ## Boards used as concrete inputs -/

/-- An empty cell. -/
def emptyPiece : Piece := ⟨Rank.Empty, Color.WhiteTeam, false⟩

/-- The board with no piece on it. -/
def emptyBoard : Board := ⟨fun _ _ => emptyPiece⟩

/-- The board `b` with cell `(r, c)` replaced by `p`. -/
def Board.put (b : Board) (r c : Fin 8) (p : Piece) : Board :=
  ⟨fun i j => if i = r ∧ j = c then p else b.Spaces i j⟩

/-- A board with a white rook at `(0, 0)`, a white pawn at `(0, 2)` and a black pawn
at `(3, 0)`. -/
def sampleBoard : Board :=
  ((emptyBoard.put 0 0 ⟨Rank.Rook, Color.WhiteTeam, false⟩).put 0 2
    ⟨Rank.Pawn, Color.WhiteTeam, false⟩).put 3 0 ⟨Rank.Pawn, Color.BlackTeam, false⟩

/-- A board with a white knight at `(3, 3)`, a white pawn at `(5, 4)` and a black pawn
at `(1, 2)`. -/
def knightBoard : Board :=
  ((emptyBoard.put 3 3 ⟨Rank.Knight, Color.WhiteTeam, false⟩).put 5 4
    ⟨Rank.Pawn, Color.WhiteTeam, false⟩).put 1 2 ⟨Rank.Pawn, Color.BlackTeam, false⟩

/-- A board with a white pawn at `(4, 4)`, black pawns at `(5, 3)` and `(5, 5)`, and
a black pawn at `(4, 5)` that is flagged `EnPassantable`. -/
def captureBoard : Board :=
  (((emptyBoard.put 4 4 ⟨Rank.Pawn, Color.WhiteTeam, false⟩).put 5 3
    ⟨Rank.Pawn, Color.BlackTeam, false⟩).put 5 5 ⟨Rank.Pawn, Color.BlackTeam, false⟩).put 4 5
    ⟨Rank.Pawn, Color.BlackTeam, true⟩

/-- A board with a white pawn at `(4, 4)` and a black pawn at `(4, 5)` that is flagged
`EnPassantable`. -/
def enPassantBoard : Board :=
  (emptyBoard.put 4 4 ⟨Rank.Pawn, Color.WhiteTeam, false⟩).put 4 5
    ⟨Rank.Pawn, Color.BlackTeam, true⟩

/-- A board with a white pawn at `(4, 4)` and a black pawn right in front of it, at
`(5, 4)`. -/
def pushBoard : Board :=
  (emptyBoard.put 4 4 ⟨Rank.Pawn, Color.WhiteTeam, false⟩).put 5 4
    ⟨Rank.Pawn, Color.BlackTeam, false⟩

/-- A board with a black pawn at `(3, 4)` and a white pawn at `(3, 5)` that is flagged
`EnPassantable`. -/
def blackEnPassantBoard : Board :=
  (emptyBoard.put 3 4 ⟨Rank.Pawn, Color.BlackTeam, false⟩).put 3 5
    ⟨Rank.Pawn, Color.WhiteTeam, true⟩

/-- A board with a white pawn at `(1, 4)` and a white knight right in front of it, at
`(2, 4)`. -/
def jumpBoard : Board :=
  (emptyBoard.put 1 4 ⟨Rank.Pawn, Color.WhiteTeam, false⟩).put 2 4
    ⟨Rank.Knight, Color.WhiteTeam, false⟩

/-- A board with a black pawn at `(7, 4)` and a white pawn at `(7, 5)` that is flagged
`EnPassantable`. -/
def edgeBoard : Board :=
  (emptyBoard.put 7 4 ⟨Rank.Pawn, Color.BlackTeam, false⟩).put 7 5
    ⟨Rank.Pawn, Color.WhiteTeam, true⟩

/-! ## Vocabulary of the statements -/

/-- The coordinate `(row, col)` lies on the board. -/
def onBoard (row col : Int) : Prop :=
  0 ≤ row ∧ row < Size ∧ 0 ≤ col ∧ col < Size

instance (row col : Int) : Decidable (onBoard row col) := by
  unfold onBoard; infer_instance

/-- The square `(row, col)` is on the board and its rank is `Empty`. -/
def isEmptyAt (b : Board) (row col : Int) : Bool :=
  match b.index row col with
  | .ok p => decide (p.Rank = Rank.Empty)
  | .error _ => false

/-- The square `(row, col)` is on the board and holds a piece whose colour
differs from `color`. -/
def isEnemyAt (b : Board) (color : Color) (row col : Int) : Bool :=
  match b.index row col with
  | .ok p => decide (p.Rank ≠ Rank.Empty) && decide (p.Color ≠ color)
  | .error _ => false

/-- The square `(row, col)` is on the board and holds a piece of colour
`color`. -/
def isOwnAt (b : Board) (color : Color) (row col : Int) : Bool :=
  match b.index row col with
  | .ok p => decide (p.Rank ≠ Rank.Empty) && decide (p.Color = color)
  | .error _ => false

/-- The quiet move from `(row, col)` to the `i`-th square of the ray in
direction `(dr, dc)`. -/
def quietTo (row col dr dc : Int) (i : Nat) : ValidMove :=
  ⟨⟨row, col⟩, ⟨row + (i : Int) * dr, col + (i : Int) * dc⟩, false, false⟩

/-- The capturing move from `(row, col)` to the `i`-th square of the ray in
direction `(dr, dc)`. -/
def captureTo (row col dr dc : Int) (i : Nat) : ValidMove :=
  ⟨⟨row, col⟩, ⟨row + (i : Int) * dr, col + (i : Int) * dc⟩, true, false⟩

/-- The quiet moves to the squares `1, ..., k` of a ray, in that order. -/
def quietRun (row col dr dc : Int) (k : Nat) : List ValidMove :=
  (List.range k).map fun i => quietTo row col dr dc (i + 1)

/-- The eight offsets probed by `KnightMoves`, in the order of its calls. -/
def knightOffsets : List (Int × Int) :=
  [(-2, -1), (-2, 1), (2, -1), (2, 1), (-1, -2), (1, -2), (-1, 2), (1, 2)]

/-- The eight offsets probed by `KingMoves`, in the order of its calls. -/
def kingOffsets : List (Int × Int) :=
  [(-1, 0), (1, 0), (0, -1), (0, 1), (-1, -1), (-1, 1), (1, -1), (1, 1)]

/-- What one fixed-offset probe contributes for a mover of colour `color` at
`(row, col)`: the move to `(row + dr, col + dc)` when that square is empty or
holds a piece of another colour (capturing in the latter case), nothing
otherwise. -/
def offsetMove (b : Board) (color : Color) (row col dr dc : Int) : List ValidMove :=
  if isEmptyAt b (row + dr) (col + dc) || isEnemyAt b color (row + dr) (col + dc) then
    [⟨⟨row, col⟩, ⟨row + dr, col + dc⟩, isEnemyAt b color (row + dr) (col + dc), false⟩]
  else
    []

/-- The contributions of a list of offsets, in order. -/
def offsetMoves (b : Board) (color : Color) (row col : Int) :
    List (Int × Int) → List ValidMove
  | [] => []
  | d :: ds => offsetMove b color row col d.1 d.2 ++ offsetMoves b color row col ds

/-- The en-passant flag of the square `(row, col)`; `false` off the board. -/
def flagAt (b : Board) (row col : Int) : Bool :=
  match b.index row col with
  | .ok p => p.EnPassantable
  | .error _ => false

/-- The list `[m]` when the condition holds, the empty list otherwise. -/
def emitIf (c : Bool) (m : ValidMove) : List ValidMove :=
  if c then [m] else []

/-- The first seven squares of the ray from `(row, col)` in direction `(dr, dc)`, in
order. -/
def rayTargets (row col dr dc : Int) : List Coord :=
  (List.range 7).map fun i => ⟨row + ((i + 1 : Nat) : Int) * dr, col + ((i + 1 : Nat) : Int) * dc⟩

/-- The eight directions of `QueenMoves`, in the order of its calls; the first four are
those of `RookMoves`, the last four those of `BishopMoves`. -/
def queenDirections : List (Int × Int) :=
  [(-1, 0), (1, 0), (0, -1), (0, 1), (-1, -1), (-1, 1), (1, -1), (1, 1)]

/-- The displacements `(i * dr, i * dc)`, `i = 1..7`, of the first seven squares of a
ray in direction `(dr, dc)`. -/
def rayOffsets (dr dc : Int) : List (Int × Int) :=
  (List.range 7).map fun i => (((i + 1 : Nat) : Int) * dr, ((i + 1 : Nat) : Int) * dc)

/-- The displacements of the rays of `RookMoves`, in the order of its calls. -/
def rookRayOffsets : List (Int × Int) :=
  rayOffsets (-1) 0 ++ rayOffsets 1 0 ++ rayOffsets 0 (-1) ++ rayOffsets 0 1

/-- The displacements of the rays of `BishopMoves`, in the order of its calls. -/
def bishopRayOffsets : List (Int × Int) :=
  rayOffsets (-1) (-1) ++ rayOffsets (-1) 1 ++ rayOffsets 1 (-1) ++ rayOffsets 1 1

/-- The square reached from `(row, col)` by the displacement `d`. -/
def shiftBy (row col : Int) (d : Int × Int) : Coord :=
  ⟨row + d.1, col + d.2⟩

/-- What C18 says of one move `m` of a piece of colour `color` standing at
`(row, col)`: it starts there, is not an en-passant move, does not land on a piece of
colour `color`, captures exactly when it lands on a piece of another colour, and
otherwise lands on an empty square. -/
def respectsOccupancy (b : Board) (color : Color) (row col : Int) (m : ValidMove) : Prop :=
  m.From = ⟨row, col⟩ ∧ m.EnPassant = false ∧
  isOwnAt b color m.To.Row m.To.Col = false ∧
  (m.Capture = true ↔ isEnemyAt b color m.To.Row m.To.Col = true) ∧
  (m.Capture = false → isEmptyAt b m.To.Row m.To.Col = true)

/-! ## Basic facts -/

theorem index_of_onBoard (b : Board) (row col : Int) (h : onBoard row col) :
    ∃ p, b.index row col = .ok p := by
  unfold onBoard at h
  unfold Board.index
  rw [dif_pos h]
  exact ⟨_, rfl⟩

theorem index_of_not_onBoard (b : Board) (row col : Int) (h : ¬ onBoard row col) :
    b.index row col = .error .indexOutOfRange := by
  unfold onBoard at h
  unfold Board.index
  rw [dif_neg h]

theorem onBoard_of_index (b : Board) (row col : Int) (p : Piece)
    (h : b.index row col = .ok p) : onBoard row col := by
  by_contra hn
  rw [index_of_not_onBoard b row col hn] at h
  cases h

/-- The probe in closed form: it never fails, `valid` says "empty or enemy"
and `capture` says "enemy". -/
theorem tryMove_eq (b : Board) (c : Color) (row col : Int) :
    tryMove b c row col
      = .ok (isEmptyAt b row col || isEnemyAt b c row col, isEnemyAt b c row col) := by
  by_cases h : onBoard row col
  · obtain ⟨p, hp⟩ := index_of_onBoard b row col h
    have hguard : ¬ (row < 0 ∨ row ≥ Size ∨ col < 0 ∨ col ≥ Size) := by
      unfold onBoard at h; omega
    unfold tryMove isEmptyAt isEnemyAt
    rw [if_neg hguard, hp]
    by_cases hr : p.Rank = Rank.Empty
    · simp [hr, bind, Except.bind, pure, Except.pure]
    · by_cases hc : p.Color = c
      · simp [hr, hc, bind, Except.bind, pure, Except.pure]
      · simp [hr, hc, bind, Except.bind, pure, Except.pure]
  · have hguard : row < 0 ∨ row ≥ Size ∨ col < 0 ∨ col ≥ Size := by
      unfold onBoard at h; omega
    unfold tryMove isEmptyAt isEnemyAt
    rw [if_pos hguard, index_of_not_onBoard b row col h]
    rfl

theorem isEmptyAt_onBoard (b : Board) (row col : Int) (h : isEmptyAt b row col = true) :
    onBoard row col := by
  by_contra hn
  unfold isEmptyAt at h
  rw [index_of_not_onBoard b row col hn] at h
  cases h

theorem isEnemyAt_onBoard (b : Board) (c : Color) (row col : Int)
    (h : isEnemyAt b c row col = true) : onBoard row col := by
  by_contra hn
  unfold isEnemyAt at h
  rw [index_of_not_onBoard b row col hn] at h
  cases h

theorem isEnemyAt_not_empty (b : Board) (c : Color) (row col : Int)
    (h : isEnemyAt b c row col = true) : isEmptyAt b row col = false := by
  unfold isEnemyAt at h
  unfold isEmptyAt
  cases hp : b.index row col with
  | error e => rfl
  | ok p =>
    rw [hp] at h
    simp at h
    simp [h.1]

theorem isEmptyAt_not_enemy (b : Board) (c : Color) (row col : Int)
    (h : isEmptyAt b row col = true) : isEnemyAt b c row col = false := by
  cases he : isEnemyAt b c row col with
  | false => rfl
  | true =>
    rw [isEnemyAt_not_empty b c row col he] at h
    cases h

theorem lineMoveLoop_step_stop (b : Board) (color : Color) (row col dr dc : Int)
    (fuel : Nat) (toRow toCol : Int) (acc : List ValidMove)
    (h : isEmptyAt b (toRow + dr) (toCol + dc) = false) :
    lineMoveLoop b color row col dr dc (fuel + 1) toRow toCol acc
      = .ok (acc ++ if isEnemyAt b color (toRow + dr) (toCol + dc) then
          [⟨⟨row, col⟩, ⟨toRow + dr, toCol + dc⟩, true, false⟩] else []) := by
  unfold lineMoveLoop
  dsimp only
  rw [tryMove_eq, h]
  cases he : isEnemyAt b color (toRow + dr) (toCol + dc) <;>
    simp [bind, Except.bind, pure, Except.pure]

theorem lineMoveLoop_step_go (b : Board) (color : Color) (row col dr dc : Int)
    (fuel : Nat) (toRow toCol : Int) (acc : List ValidMove)
    (h : isEmptyAt b (toRow + dr) (toCol + dc) = true) :
    lineMoveLoop b color row col dr dc (fuel + 1) toRow toCol acc
      = lineMoveLoop b color row col dr dc fuel (toRow + dr) (toCol + dc)
          (acc ++ [⟨⟨row, col⟩, ⟨toRow + dr, toCol + dc⟩, false, false⟩]) := by
  conv_lhs => unfold lineMoveLoop
  dsimp only
  rw [tryMove_eq, h, isEmptyAt_not_enemy b color _ _ h]
  simp [bind, Except.bind]

/-! ## The ray caster in closed form -/

theorem ray_succ (x d : Int) (s : Nat) : x + (s : Int) * d + d = x + ((s + 1 : Nat) : Int) * d := by
  push_cast; ring

/-- The loop of `lineMove` entered at square `s` of a ray whose squares
`s + 1, ..., s + k` are empty and whose square `s + k + 1` is not. -/
theorem lineMoveLoop_run (b : Board) (color : Color) (row col dr dc : Int) (k : Nat) :
    ∀ (fuel s : Nat) (acc : List ValidMove), k < fuel →
      (∀ i, 1 ≤ i → i ≤ k →
        isEmptyAt b (row + ((s + i : Nat) : Int) * dr) (col + ((s + i : Nat) : Int) * dc) = true) →
      isEmptyAt b (row + ((s + k + 1 : Nat) : Int) * dr)
        (col + ((s + k + 1 : Nat) : Int) * dc) = false →
      lineMoveLoop b color row col dr dc fuel (row + (s : Int) * dr) (col + (s : Int) * dc) acc
        = .ok (acc ++ (List.range k).map (fun i => quietTo row col dr dc (s + i + 1))
            ++ if isEnemyAt b color (row + ((s + k + 1 : Nat) : Int) * dr)
                  (col + ((s + k + 1 : Nat) : Int) * dc)
               then [captureTo row col dr dc (s + k + 1)] else []) := by
  induction k with
  | zero =>
    intro fuel s acc hf _ hstop
    obtain ⟨f, rfl⟩ : ∃ f, fuel = f + 1 := ⟨fuel - 1, by omega⟩
    simp only [Nat.add_zero] at hstop ⊢
    rw [lineMoveLoop_step_stop b color row col dr dc f _ _ acc
      (by rw [ray_succ, ray_succ]; exact hstop)]
    rw [ray_succ, ray_succ]
    simp [captureTo]
  | succ k ih =>
    intro fuel s acc hf hrun hstop
    obtain ⟨f, rfl⟩ : ∃ f, fuel = f + 1 := ⟨fuel - 1, by omega⟩
    have h1 := hrun 1 (le_refl 1) (by omega)
    rw [lineMoveLoop_step_go b color row col dr dc f _ _ acc
      (by rw [ray_succ, ray_succ]; exact h1)]
    rw [ray_succ, ray_succ]
    rw [ih f (s + 1) _ (by omega)
      (fun i hi hik => by
        have := hrun (i + 1) (by omega) (by omega)
        rw [show s + 1 + i = s + (i + 1) by omega]; exact this)
      (by rw [show s + 1 + k + 1 = s + (k + 1) + 1 by omega]; exact hstop)]
    rw [show s + 1 + k + 1 = s + (k + 1) + 1 by omega]
    have hl : acc ++ [(⟨⟨row, col⟩, ⟨row + ((s + 1 : Nat) : Int) * dr,
          col + ((s + 1 : Nat) : Int) * dc⟩, false, false⟩ : ValidMove)]
          ++ (List.range k).map (fun i => quietTo row col dr dc (s + 1 + i + 1))
        = acc ++ (List.range (k + 1)).map (fun i => quietTo row col dr dc (s + i + 1)) := by
      rw [List.range_succ_eq_map, List.map_cons, List.map_map, List.append_assoc]
      congr 1
      rw [List.singleton_append]
      congr 1
      apply List.map_congr_left
      intro i _
      show quietTo row col dr dc (s + 1 + i + 1) = quietTo row col dr dc (s + (i + 1) + 1)
      rw [show s + 1 + i + 1 = s + (i + 1) + 1 by omega]
    rw [hl]

theorem isEmptyAt_false_of_not_onBoard (b : Board) (row col : Int) (h : ¬ onBoard row col) :
    isEmptyAt b row col = false := by
  cases he : isEmptyAt b row col with
  | false => rfl
  | true => exact absurd (isEmptyAt_onBoard b row col he) h

/-- Eight or more steps in a non-zero direction from a square of the board end off the
board. -/
theorem ray_leaves_board (row col dr dc : Int) (i : Nat) (hon : onBoard row col)
    (hd : (dr, dc) ≠ (0, 0)) (hi : 8 ≤ i) :
    ¬ onBoard (row + (i : Int) * dr) (col + (i : Int) * dc) := by
  intro h
  unfold onBoard at hon h
  simp only [Size] at hon h
  have hi8 : (8 : Int) ≤ (i : Int) := by exact_mod_cast hi
  have hdd : dr ≠ 0 ∨ dc ≠ 0 := by
    by_contra hc
    push_neg at hc
    exact hd (by rw [hc.1, hc.2])
  rcases hdd with h0 | h0
  · rcases lt_or_gt_of_ne h0 with hneg | hpos
    · have : (i : Int) * dr ≤ (i : Int) * (-1) :=
        mul_le_mul_of_nonneg_left (by omega) (by omega)
      omega
    · have : (i : Int) * 1 ≤ (i : Int) * dr :=
        mul_le_mul_of_nonneg_left (by omega) (by omega)
      omega
  · rcases lt_or_gt_of_ne h0 with hneg | hpos
    · have : (i : Int) * dc ≤ (i : Int) * (-1) :=
        mul_le_mul_of_nonneg_left (by omega) (by omega)
      omega
    · have : (i : Int) * 1 ≤ (i : Int) * dc :=
        mul_le_mul_of_nonneg_left (by omega) (by omega)
      omega

/-- Along a ray in a non-zero direction from a square of the board there is a first
square, among the first eight, that is not an empty square of the board. -/
theorem exists_run (b : Board) (row col dr dc : Int) (hon : onBoard row col)
    (hd : (dr, dc) ≠ (0, 0)) :
    ∃ k : Nat, k ≤ 7 ∧
      (∀ i : Nat, 1 ≤ i → i ≤ k →
        isEmptyAt b (row + (i : Int) * dr) (col + (i : Int) * dc) = true) ∧
      isEmptyAt b (row + ((k + 1 : Nat) : Int) * dr) (col + ((k + 1 : Nat) : Int) * dc)
        = false := by
  have hex : ∃ j : Nat, isEmptyAt b (row + ((j + 1 : Nat) : Int) * dr)
      (col + ((j + 1 : Nat) : Int) * dc) = false :=
    ⟨7, isEmptyAt_false_of_not_onBoard b _ _
      (ray_leaves_board row col dr dc 8 hon hd (le_refl 8))⟩
  refine ⟨Nat.find hex, Nat.find_le (isEmptyAt_false_of_not_onBoard b _ _
      (ray_leaves_board row col dr dc 8 hon hd (le_refl 8))), ?_, Nat.find_spec hex⟩
  intro i h1 hik
  obtain ⟨j, rfl⟩ : ∃ j, i = j + 1 := ⟨i - 1, by omega⟩
  have := Nat.find_min hex (show j < Nat.find hex by omega)
  simpa using this

/-- The result of `lineMove` on a ray whose first `k` squares are empty squares of the
board and whose next square is not. -/
theorem lineMove_of_run (b : Board) (row col dr dc : Int) (fuel k : Nat) (origin : Piece)
    (ho : b.index row col = .ok origin) (hf : k < fuel)
    (hrun : ∀ i : Nat, 1 ≤ i → i ≤ k →
      isEmptyAt b (row + (i : Int) * dr) (col + (i : Int) * dc) = true)
    (hstop : isEmptyAt b (row + ((k + 1 : Nat) : Int) * dr)
      (col + ((k + 1 : Nat) : Int) * dc) = false) :
    lineMove fuel b row col dr dc
      = .ok (quietRun row col dr dc k
          ++ if isEnemyAt b origin.Color (row + ((k + 1 : Nat) : Int) * dr)
                (col + ((k + 1 : Nat) : Int) * dc)
             then [captureTo row col dr dc (k + 1)] else []) := by
  have hloop := lineMoveLoop_run b origin.Color row col dr dc k fuel 0 [] hf
    (fun i h1 hik => by simpa using hrun i h1 hik) (by simpa using hstop)
  unfold lineMove
  rw [ho]
  simp only [Nat.cast_zero, zero_mul, add_zero, zero_add, List.nil_append] at hloop
  simp only [bind, Except.bind]
  rw [hloop]
  rfl

theorem mem_quietRun (row col dr dc : Int) (k : Nat) (m : ValidMove) :
    m ∈ quietRun row col dr dc k ↔ ∃ i : Nat, 1 ≤ i ∧ i ≤ k ∧ m = quietTo row col dr dc i := by
  unfold quietRun
  rw [List.mem_map]
  constructor
  · rintro ⟨i, hi, rfl⟩
    rw [List.mem_range] at hi
    exact ⟨i + 1, by omega, by omega, rfl⟩
  · rintro ⟨i, h1, hk, rfl⟩
    refine ⟨i - 1, by rw [List.mem_range]; omega, ?_⟩
    rw [show i - 1 + 1 = i by omega]

theorem length_quietRun (row col dr dc : Int) (k : Nat) :
    (quietRun row col dr dc k).length = k := by
  simp [quietRun]

theorem filter_capture_quietRun (row col dr dc : Int) (k : Nat) :
    (quietRun row col dr dc k).filter (fun m => m.Capture) = [] := by
  rw [List.filter_eq_nil_iff]
  intro m hm
  obtain ⟨i, _, _, rfl⟩ := (mem_quietRun row col dr dc k m).1 hm
  simp [quietTo]

/-- Distinct step counts along a ray in a non-zero direction reach distinct squares. -/
theorem ray_injective (row col dr dc : Int) (i j : Nat) (hd : (dr, dc) ≠ (0, 0))
    (h : (⟨row + (i : Int) * dr, col + (i : Int) * dc⟩ : Coord)
      = ⟨row + (j : Int) * dr, col + (j : Int) * dc⟩) : i = j := by
  injection h with hr hc
  have hdd : dr ≠ 0 ∨ dc ≠ 0 := by
    by_contra hc
    push_neg at hc
    exact hd (by rw [hc.1, hc.2])
  rcases hdd with h0 | h0
  · have : (i : Int) * dr = (j : Int) * dr := by omega
    exact_mod_cast mul_right_cancel₀ h0 this
  · have : (i : Int) * dc = (j : Int) * dc := by omega
    exact_mod_cast mul_right_cancel₀ h0 this

theorem isEnemyAt_false_of_not_onBoard (b : Board) (c : Color) (row col : Int)
    (h : ¬ onBoard row col) : isEnemyAt b c row col = false := by
  cases he : isEnemyAt b c row col with
  | false => rfl
  | true => exact absurd (isEnemyAt_onBoard b c row col he) h

/-- A ray whose first `k` squares are empty squares of the board and whose next square
is off the board yields the `k` quiet moves. -/
theorem lineMove_open_ray (b : Board) (row col dr dc : Int) (fuel k : Nat) (origin : Piece)
    (ho : b.index row col = .ok origin) (hf : k < fuel)
    (hrun : ∀ i : Nat, 1 ≤ i → i ≤ k →
      isEmptyAt b (row + (i : Int) * dr) (col + (i : Int) * dc) = true)
    (hoff : ¬ onBoard (row + ((k + 1 : Nat) : Int) * dr)
      (col + ((k + 1 : Nat) : Int) * dc)) :
    lineMove fuel b row col dr dc = .ok (quietRun row col dr dc k) := by
  rw [lineMove_of_run b row col dr dc fuel k origin ho hf hrun
    (isEmptyAt_false_of_not_onBoard b _ _ hoff),
    isEnemyAt_false_of_not_onBoard b _ _ _ hoff]
  simp

/-- On a board whose only non-empty square is `(row, col)`, every other square of the
board is an empty square. -/
theorem isEmptyAt_of_lone (b : Board) (row col r c : Int)
    (hlone : ∀ (r c : Int) (p : Piece), b.index r c = .ok p → (r, c) ≠ (row, col) →
      p.Rank = Rank.Empty)
    (hon : onBoard r c) (hne : (r, c) ≠ (row, col)) : isEmptyAt b r c = true := by
  obtain ⟨p, hp⟩ := index_of_onBoard b r c hon
  unfold isEmptyAt
  rw [hp]
  simp [hlone r c p hp hne]

/-- On a board whose only non-empty square is `(row, col)`, a ray from that square
whose first `k` squares are on the board and whose next square is not yields the `k`
quiet moves. -/
theorem lineMove_lone (b : Board) (row col dr dc : Int) (fuel k : Nat) (origin : Piece)
    (ho : b.index row col = .ok origin) (hf : k < fuel)
    (hlone : ∀ (r c : Int) (p : Piece), b.index r c = .ok p → (r, c) ≠ (row, col) →
      p.Rank = Rank.Empty)
    (hd : (dr, dc) ≠ (0, 0))
    (hin : ∀ i : Nat, 1 ≤ i → i ≤ k →
      onBoard (row + (i : Int) * dr) (col + (i : Int) * dc))
    (hoff : ¬ onBoard (row + ((k + 1 : Nat) : Int) * dr)
      (col + ((k + 1 : Nat) : Int) * dc)) :
    lineMove fuel b row col dr dc = .ok (quietRun row col dr dc k) := by
  apply lineMove_open_ray b row col dr dc fuel k origin ho hf _ hoff
  intro i h1 hik
  apply isEmptyAt_of_lone b row col _ _ hlone (hin i h1 hik)
  intro heq
  have h0 := ray_injective row col dr dc i 0 hd (by
    have h1 := congrArg Prod.fst heq
    have h2 := congrArg Prod.snd heq
    simp only at h1 h2
    simp [h1, h2])
  omega

/-! ## The fixed-offset generator in closed form -/

theorem tryAndAppend_eq (vm : List ValidMove) (b : Board) (row col dr dc : Int)
    (origin : Piece) (ho : b.index row col = .ok origin) :
    tryAndAppend vm b row col dr dc = .ok (vm ++ offsetMove b origin.Color row col dr dc) := by
  unfold tryAndAppend offsetMove
  rw [ho]
  simp only [bind, Except.bind]
  rw [tryMove_eq]
  cases h : (isEmptyAt b (row + dr) (col + dc) || isEnemyAt b origin.Color (row + dr) (col + dc))
    <;> simp [pure, Except.pure]

theorem valid_iff_not_own (b : Board) (c : Color) (row col : Int) :
    (isEmptyAt b row col || isEnemyAt b c row col) = true
      ↔ onBoard row col ∧ isOwnAt b c row col = false := by
  by_cases hon : onBoard row col
  · obtain ⟨p, hp⟩ := index_of_onBoard b row col hon
    unfold isEmptyAt isEnemyAt isOwnAt
    rw [hp]
    by_cases hr : p.Rank = Rank.Empty <;> by_cases hc : p.Color = c <;> simp [hr, hc, hon]
  · rw [isEmptyAt_false_of_not_onBoard b row col hon,
      isEnemyAt_false_of_not_onBoard b c row col hon]
    simp [hon]

theorem mem_offsetMove (b : Board) (c : Color) (row col dr dc : Int) (m : ValidMove) :
    m ∈ offsetMove b c row col dr dc
      ↔ onBoard (row + dr) (col + dc) ∧ isOwnAt b c (row + dr) (col + dc) = false ∧
        m = ⟨⟨row, col⟩, ⟨row + dr, col + dc⟩, isEnemyAt b c (row + dr) (col + dc), false⟩ := by
  unfold offsetMove
  by_cases hv : (isEmptyAt b (row + dr) (col + dc) || isEnemyAt b c (row + dr) (col + dc)) = true
  · rw [if_pos hv, List.mem_singleton]
    have := (valid_iff_not_own b c _ _).1 hv
    exact ⟨fun h => ⟨this.1, this.2, h⟩, fun h => h.2.2⟩
  · rw [if_neg hv]
    constructor
    · intro h; cases h
    · intro h
      exact absurd ((valid_iff_not_own b c _ _).2 ⟨h.1, h.2.1⟩) hv

theorem mem_offsetMoves (b : Board) (c : Color) (row col : Int) (m : ValidMove)
    (ds : List (Int × Int)) :
    m ∈ offsetMoves b c row col ds ↔ ∃ d ∈ ds, m ∈ offsetMove b c row col d.1 d.2 := by
  induction ds with
  | nil => simp [offsetMoves]
  | cons d ds ih => simp [offsetMoves, ih]

theorem offsetMoves_to_sublist (b : Board) (c : Color) (row col : Int)
    (ds : List (Int × Int)) :
    List.Sublist ((offsetMoves b c row col ds).map (fun m => m.To))
      (ds.map (fun d => (⟨row + d.1, col + d.2⟩ : Coord))) := by
  induction ds with
  | nil => simp [offsetMoves]
  | cons d ds ih =>
    simp only [offsetMoves, List.map_append, List.map_cons]
    unfold offsetMove
    split
    · simpa using ih
    · simpa using List.Sublist.cons _ ih

theorem offsetMoves_to_nodup (b : Board) (c : Color) (row col : Int)
    (ds : List (Int × Int)) (hds : ds.Nodup) :
    ((offsetMoves b c row col ds).map (fun m => m.To)).Nodup := by
  apply List.Nodup.sublist (offsetMoves_to_sublist b c row col ds)
  apply List.Nodup.map _ hds
  intro d e h
  injection h with h1 h2
  exact Prod.ext (by omega) (by omega)

theorem KnightMoves_eq (b : Board) (row col : Int) (origin : Piece)
    (ho : b.index row col = .ok origin) :
    KnightMoves b row col = .ok (offsetMoves b origin.Color row col knightOffsets) := by
  unfold KnightMoves
  simp only [bind, Except.bind, tryAndAppend_eq _ b row col _ _ origin ho, pure, Except.pure,
    knightOffsets, offsetMoves, List.nil_append, List.append_nil, List.append_assoc]

theorem KingMoves_eq (b : Board) (row col : Int) (origin : Piece)
    (ho : b.index row col = .ok origin) :
    KingMoves b row col = .ok (offsetMoves b origin.Color row col kingOffsets) := by
  unfold KingMoves
  simp only [bind, Except.bind, tryAndAppend_eq _ b row col _ _ origin ho, pure, Except.pure,
    kingOffsets, offsetMoves, List.nil_append, List.append_nil, List.append_assoc]

theorem offsetMove_of_empty (b : Board) (c : Color) (row col dr dc : Int)
    (h : isEmptyAt b (row + dr) (col + dc) = true) :
    offsetMove b c row col dr dc = [⟨⟨row, col⟩, ⟨row + dr, col + dc⟩, false, false⟩] := by
  unfold offsetMove
  rw [h, isEmptyAt_not_enemy b c _ _ h]
  rfl

theorem offsetMove_of_not_onBoard (b : Board) (c : Color) (row col dr dc : Int)
    (h : ¬ onBoard (row + dr) (col + dc)) :
    offsetMove b c row col dr dc = [] := by
  unfold offsetMove
  rw [isEmptyAt_false_of_not_onBoard b _ _ h, isEnemyAt_false_of_not_onBoard b c _ _ h]
  rfl

/-! ## The pawn generator in closed form -/

theorem ok_ite {ε α : Type} (c : Prop) [Decidable c] (x y : α) :
    (if c then (Except.ok x : Except ε α) else Except.ok y) = Except.ok (if c then x else y) := by
  split <;> rfl

theorem valid_and_enemy (b : Board) (k : Color) (r c : Int) :
    ((isEmptyAt b r c || isEnemyAt b k r c) && isEnemyAt b k r c) = isEnemyAt b k r c := by
  cases isEmptyAt b r c <;> cases isEnemyAt b k r c <;> rfl

theorem valid_and_not_enemy (b : Board) (k : Color) (r c : Int) :
    ((isEmptyAt b r c || isEnemyAt b k r c) && !isEnemyAt b k r c) = isEmptyAt b r c := by
  cases he : isEmptyAt b r c
  · cases isEnemyAt b k r c <;> rfl
  · rw [isEmptyAt_not_enemy b k r c he]; rfl

theorem append_ite_singleton (c : Bool) (l : List ValidMove) (m : ValidMove) :
    (if c = true then l ++ [m] else l) = l ++ emitIf c m := by
  cases c <;> simp [emitIf]

theorem ite_singleton_emit (c : Bool) (m : ValidMove) :
    (if c = true then [m] else []) = emitIf c m := rfl

theorem emitIf_false (m : ValidMove) : emitIf false m = [] := rfl

theorem flagAt_of_index (b : Board) (row col : Int) (p : Piece)
    (h : b.index row col = .ok p) : flagAt b row col = p.EnPassantable := by
  unfold flagAt
  rw [h]

theorem PawnMoves_white (b : Board) (row col : Int) (origin : Piece)
    (ho : b.index row col = .ok origin) (hw : origin.Color = Color.WhiteTeam) :
    PawnMoves b row col = .ok (
      emitIf (isEmptyAt b (row + 1) col || isEnemyAt b Color.WhiteTeam (row + 1) col)
          ⟨⟨row, col⟩, ⟨row + 1, col⟩, false, false⟩
      ++ emitIf (isEnemyAt b Color.WhiteTeam (row + 1) (col - 1))
          ⟨⟨row, col⟩, ⟨row + 1, col - 1⟩, true, false⟩
      ++ emitIf (isEnemyAt b Color.WhiteTeam (row + 1) (col + 1))
          ⟨⟨row, col⟩, ⟨row + 1, col + 1⟩, true, false⟩
      ++ emitIf (decide (row = 1) && isEmptyAt b (row + 2) col)
          ⟨⟨row, col⟩, ⟨row + 2, col⟩, true, false⟩
      ++ emitIf (decide (col + 1 < Size) && flagAt b row (col + 1)
            && isEmptyAt b (row + 1) (col + 1))
          ⟨⟨row, col⟩, ⟨row + 1, col + 1⟩, false, true⟩
      ++ emitIf (decide (col - 1 ≥ 0) && flagAt b row (col - 1)
            && isEmptyAt b (row + 1) (col - 1))
          ⟨⟨row, col⟩, ⟨row + 1, col - 1⟩, false, true⟩) := by
  have hon := onBoard_of_index b row col origin ho
  have hRex : col + 1 < Size → ∃ p, b.index row (col + 1) = .ok p := fun h =>
    index_of_onBoard b _ _ (by unfold onBoard at *; simp only [Size] at *; omega)
  have hLex : col - 1 ≥ 0 → ∃ p, b.index row (col - 1) = .ok p := fun h =>
    index_of_onBoard b _ _ (by unfold onBoard at *; simp only [Size] at *; omega)
  unfold PawnMoves
  rw [ho]
  by_cases hrow : row = 1 <;> by_cases h1 : col + 1 < Size <;> by_cases h2 : col - 1 ≥ 0
  · subst hrow
    obtain ⟨pR, hR⟩ := hRex h1
    obtain ⟨pL, hL⟩ := hLex h2
    rw [flagAt_of_index b _ _ pR hR, flagAt_of_index b _ _ pL hL]
    cases hfR : pR.EnPassantable <;> cases hfL : pL.EnPassantable <;>
      simp only [bind, Except.bind, hw, if_true, tryMove_eq, hR,hfR,hL,hfL, h1, h2,
          pure, Except.pure, valid_and_enemy, valid_and_not_enemy, append_ite_singleton, ite_singleton_emit,
          if_true, if_false, Bool.false_eq_true, decide_True, decide_False, Bool.true_and,
          Bool.false_and, emitIf_false, List.append_nil, List.nil_append]
  · subst hrow
    obtain ⟨pR, hR⟩ := hRex h1
    rw [flagAt_of_index b _ _ pR hR]
    cases hfR : pR.EnPassantable <;>
      simp only [bind, Except.bind, hw, if_true, tryMove_eq, hR,hfR, h1, h2,
          pure, Except.pure, valid_and_enemy, valid_and_not_enemy, append_ite_singleton, ite_singleton_emit,
          if_true, if_false, Bool.false_eq_true, decide_True, decide_False, Bool.true_and,
          Bool.false_and, emitIf_false, List.append_nil, List.nil_append]
  · subst hrow
    obtain ⟨pL, hL⟩ := hLex h2
    rw [flagAt_of_index b _ _ pL hL]
    cases hfL : pL.EnPassantable <;>
      simp only [bind, Except.bind, hw, if_true, tryMove_eq, hL,hfL, h1, h2,
          pure, Except.pure, valid_and_enemy, valid_and_not_enemy, append_ite_singleton, ite_singleton_emit,
          if_true, if_false, Bool.false_eq_true, decide_True, decide_False, Bool.true_and,
          Bool.false_and, emitIf_false, List.append_nil, List.nil_append]
  · subst hrow
    simp only [bind, Except.bind, hw, if_true, tryMove_eq,  h1, h2,
        pure, Except.pure, valid_and_enemy, valid_and_not_enemy, append_ite_singleton, ite_singleton_emit,
        if_true, if_false, Bool.false_eq_true, decide_True, decide_False, Bool.true_and,
        Bool.false_and, emitIf_false, List.append_nil, List.nil_append]
  · obtain ⟨pR, hR⟩ := hRex h1
    obtain ⟨pL, hL⟩ := hLex h2
    rw [flagAt_of_index b _ _ pR hR, flagAt_of_index b _ _ pL hL]
    cases hfR : pR.EnPassantable <;> cases hfL : pL.EnPassantable <;>
      simp only [bind, Except.bind, hw, if_true, tryMove_eq, hR,hfR,hL,hfL, h1, h2, hrow,
          pure, Except.pure, valid_and_enemy, valid_and_not_enemy, append_ite_singleton, ite_singleton_emit,
          if_true, if_false, Bool.false_eq_true, decide_True, decide_False, Bool.true_and,
          Bool.false_and, emitIf_false, List.append_nil, List.nil_append]
  · obtain ⟨pR, hR⟩ := hRex h1
    rw [flagAt_of_index b _ _ pR hR]
    cases hfR : pR.EnPassantable <;>
      simp only [bind, Except.bind, hw, if_true, tryMove_eq, hR,hfR, h1, h2, hrow,
          pure, Except.pure, valid_and_enemy, valid_and_not_enemy, append_ite_singleton, ite_singleton_emit,
          if_true, if_false, Bool.false_eq_true, decide_True, decide_False, Bool.true_and,
          Bool.false_and, emitIf_false, List.append_nil, List.nil_append]
  · obtain ⟨pL, hL⟩ := hLex h2
    rw [flagAt_of_index b _ _ pL hL]
    cases hfL : pL.EnPassantable <;>
      simp only [bind, Except.bind, hw, if_true, tryMove_eq, hL,hfL, h1, h2, hrow,
          pure, Except.pure, valid_and_enemy, valid_and_not_enemy, append_ite_singleton, ite_singleton_emit,
          if_true, if_false, Bool.false_eq_true, decide_True, decide_False, Bool.true_and,
          Bool.false_and, emitIf_false, List.append_nil, List.nil_append]
  · simp only [bind, Except.bind, hw, if_true, tryMove_eq,  h1, h2, hrow,
        pure, Except.pure, valid_and_enemy, valid_and_not_enemy, append_ite_singleton, ite_singleton_emit,
        if_true, if_false, Bool.false_eq_true, decide_True, decide_False, Bool.true_and,
        Bool.false_and, emitIf_false, List.append_nil, List.nil_append]

theorem PawnMoves_black (b : Board) (row col : Int) (origin : Piece)
    (ho : b.index row col = .ok origin) (hw : origin.Color ≠ Color.WhiteTeam) :
    PawnMoves b row col = .ok (
      emitIf (isEmptyAt b (row - 1) col || isEnemyAt b origin.Color (row - 1) col)
          ⟨⟨row, col⟩, ⟨row - 1, col⟩, false, false⟩
      ++ emitIf (isEnemyAt b origin.Color (row - 1) (col - 1))
          ⟨⟨row, col⟩, ⟨row - 1, col - 1⟩, true, false⟩
      ++ emitIf (isEnemyAt b origin.Color (row - 1) (col + 1))
          ⟨⟨row, col⟩, ⟨row - 1, col + 1⟩, true, false⟩
      ++ emitIf (decide (row = 6) && isEmptyAt b (row - 2) col)
          ⟨⟨row, col⟩, ⟨row - 2, col⟩, true, false⟩
      ++ emitIf (decide (col + 1 < Size) && flagAt b row (col + 1)
            && isEmptyAt b (row - 1) (col + 1))
          ⟨⟨row, col⟩, ⟨row + 1, col + 1⟩, false, true⟩
      ++ emitIf (decide (col - 1 ≥ 0) && flagAt b row (col - 1)
            && isEmptyAt b (row - 1) (col - 1))
          ⟨⟨row, col⟩, ⟨row + 1, col - 1⟩, false, true⟩) := by
  have hon := onBoard_of_index b row col origin ho
  have hRex : col + 1 < Size → ∃ p, b.index row (col + 1) = .ok p := fun h =>
    index_of_onBoard b _ _ (by unfold onBoard at *; simp only [Size] at *; omega)
  have hLex : col - 1 ≥ 0 → ∃ p, b.index row (col - 1) = .ok p := fun h =>
    index_of_onBoard b _ _ (by unfold onBoard at *; simp only [Size] at *; omega)
  unfold PawnMoves
  rw [ho]
  by_cases hrow : row = 6 <;> by_cases h1 : col + 1 < Size <;> by_cases h2 : col - 1 ≥ 0
  · subst hrow
    obtain ⟨pR, hR⟩ := hRex h1
    obtain ⟨pL, hL⟩ := hLex h2
    rw [flagAt_of_index b _ _ pR hR, flagAt_of_index b _ _ pL hL]
    cases hfR : pR.EnPassantable <;> cases hfL : pL.EnPassantable <;>
      simp only [bind, Except.bind, hw, if_false, tryMove_eq, hR,hfR,hL,hfL, h1, h2,
          pure, Except.pure, valid_and_enemy, valid_and_not_enemy, append_ite_singleton, ite_singleton_emit,
          if_true, if_false, Bool.false_eq_true, decide_True, decide_False, Bool.true_and,
          Bool.false_and, emitIf_false, List.append_nil, List.nil_append]
  · subst hrow
    obtain ⟨pR, hR⟩ := hRex h1
    rw [flagAt_of_index b _ _ pR hR]
    cases hfR : pR.EnPassantable <;>
      simp only [bind, Except.bind, hw, if_false, tryMove_eq, hR,hfR, h1, h2,
          pure, Except.pure, valid_and_enemy, valid_and_not_enemy, append_ite_singleton, ite_singleton_emit,
          if_true, if_false, Bool.false_eq_true, decide_True, decide_False, Bool.true_and,
          Bool.false_and, emitIf_false, List.append_nil, List.nil_append]
  · subst hrow
    obtain ⟨pL, hL⟩ := hLex h2
    rw [flagAt_of_index b _ _ pL hL]
    cases hfL : pL.EnPassantable <;>
      simp only [bind, Except.bind, hw, if_false, tryMove_eq, hL,hfL, h1, h2,
          pure, Except.pure, valid_and_enemy, valid_and_not_enemy, append_ite_singleton, ite_singleton_emit,
          if_true, if_false, Bool.false_eq_true, decide_True, decide_False, Bool.true_and,
          Bool.false_and, emitIf_false, List.append_nil, List.nil_append]
  · subst hrow
    simp only [bind, Except.bind, hw, if_false, tryMove_eq,  h1, h2,
        pure, Except.pure, valid_and_enemy, valid_and_not_enemy, append_ite_singleton, ite_singleton_emit,
        if_true, if_false, Bool.false_eq_true, decide_True, decide_False, Bool.true_and,
        Bool.false_and, emitIf_false, List.append_nil, List.nil_append]
  · obtain ⟨pR, hR⟩ := hRex h1
    obtain ⟨pL, hL⟩ := hLex h2
    rw [flagAt_of_index b _ _ pR hR, flagAt_of_index b _ _ pL hL]
    cases hfR : pR.EnPassantable <;> cases hfL : pL.EnPassantable <;>
      simp only [bind, Except.bind, hw, if_false, tryMove_eq, hR,hfR,hL,hfL, h1, h2, hrow,
          pure, Except.pure, valid_and_enemy, valid_and_not_enemy, append_ite_singleton, ite_singleton_emit,
          if_true, if_false, Bool.false_eq_true, decide_True, decide_False, Bool.true_and,
          Bool.false_and, emitIf_false, List.append_nil, List.nil_append]
  · obtain ⟨pR, hR⟩ := hRex h1
    rw [flagAt_of_index b _ _ pR hR]
    cases hfR : pR.EnPassantable <;>
      simp only [bind, Except.bind, hw, if_false, tryMove_eq, hR,hfR, h1, h2, hrow,
          pure, Except.pure, valid_and_enemy, valid_and_not_enemy, append_ite_singleton, ite_singleton_emit,
          if_true, if_false, Bool.false_eq_true, decide_True, decide_False, Bool.true_and,
          Bool.false_and, emitIf_false, List.append_nil, List.nil_append]
  · obtain ⟨pL, hL⟩ := hLex h2
    rw [flagAt_of_index b _ _ pL hL]
    cases hfL : pL.EnPassantable <;>
      simp only [bind, Except.bind, hw, if_false, tryMove_eq, hL,hfL, h1, h2, hrow,
          pure, Except.pure, valid_and_enemy, valid_and_not_enemy, append_ite_singleton, ite_singleton_emit,
          if_true, if_false, Bool.false_eq_true, decide_True, decide_False, Bool.true_and,
          Bool.false_and, emitIf_false, List.append_nil, List.nil_append]
  · simp only [bind, Except.bind, hw, if_false, tryMove_eq,  h1, h2, hrow,
        pure, Except.pure, valid_and_enemy, valid_and_not_enemy, append_ite_singleton, ite_singleton_emit,
        if_true, if_false, Bool.false_eq_true, decide_True, decide_False, Bool.true_and,
        Bool.false_and, emitIf_false, List.append_nil, List.nil_append]

theorem mem_emitIf (c : Bool) (x m : ValidMove) : m ∈ emitIf c x ↔ c = true ∧ m = x := by
  cases c <;> simp [emitIf]

theorem emitIf_true (m : ValidMove) : emitIf true m = [m] := rfl

theorem isEnemyAt_false_of_lone (b : Board) (k : Color) (row col r c : Int)
    (hlone : ∀ (r c : Int) (p : Piece), b.index r c = .ok p → (r, c) ≠ (row, col) →
      p.Rank = Rank.Empty)
    (hne : (r, c) ≠ (row, col)) : isEnemyAt b k r c = false := by
  by_cases hon : onBoard r c
  · exact isEmptyAt_not_enemy b k r c (isEmptyAt_of_lone b row col r c hlone hon hne)
  · exact isEnemyAt_false_of_not_onBoard b k r c hon

theorem flagAt_false_of_unflagged (b : Board) (r c : Int)
    (hflags : ∀ (r c : Int) (p : Piece), b.index r c = .ok p → p.EnPassantable = false) :
    flagAt b r c = false := by
  unfold flagAt
  cases h : b.index r c with
  | error e => rfl
  | ok p => exact hflags r c p h

/-- For an on-board origin, a non-zero direction and a budget of at least 8, `lineMove`
returns a list. -/
theorem lineMove_ok (b : Board) (row col dr dc : Int) (fuel : Nat) (hon : onBoard row col)
    (hd : (dr, dc) ≠ (0, 0)) (hf : 8 ≤ fuel) :
    ∃ ms, lineMove fuel b row col dr dc = .ok ms := by
  obtain ⟨origin, ho⟩ := index_of_onBoard b row col hon
  obtain ⟨k, hk7, hrun, hstop⟩ := exists_run b row col dr dc hon hd
  exact ⟨_, lineMove_of_run b row col dr dc fuel k origin ho (by omega) hrun hstop⟩

/-- Reading a cell of a board that holds a single piece: away from that piece the cell
is empty. -/
theorem index_put_lone (r0 c0 : Fin 8) (p : Piece) (r c : Int) (q : Piece)
    (h : (emptyBoard.put r0 c0 p).index r c = .ok q)
    (hne : (r, c) ≠ (((r0 : Nat) : Int), ((c0 : Nat) : Int))) : q.Rank = Rank.Empty := by
  have hon := onBoard_of_index _ r c q h
  unfold Board.index at h
  unfold onBoard at hon
  rw [dif_pos hon] at h
  injection h with h
  rw [← h]
  unfold Board.put emptyBoard
  simp only
  split
  · rename_i heq
    exfalso
    apply hne
    have h1 := congrArg Fin.val heq.1
    have h2 := congrArg Fin.val heq.2
    simp only [Size] at hon
    simp only at h1 h2
    exact Prod.ext (by simp only; omega) (by simp only; omega)
  · rfl


/-! ## The shape of a ray -/

theorem map_to_quietRun (row col dr dc : Int) (k : Nat) :
    (quietRun row col dr dc k).map (fun m => m.To)
      = (List.range k).map
          (fun i => (⟨row + ((i + 1 : Nat) : Int) * dr, col + ((i + 1 : Nat) : Int) * dc⟩ : Coord)) := by
  unfold quietRun
  rw [List.map_map]
  rfl

/-- For an on-board origin, a non-zero direction and a budget of at least 8, `lineMove`
returns `n` moves, the `i`-th of which goes to the `i`-th square of the ray, and these
`n` squares are on the board. -/
theorem lineMove_shape (b : Board) (row col dr dc : Int) (fuel : Nat) (hon : onBoard row col)
    (hd : (dr, dc) ≠ (0, 0)) (hf : 8 ≤ fuel) :
    ∃ (ms : List ValidMove) (n : Nat), lineMove fuel b row col dr dc = .ok ms ∧
      ms.length = n ∧
      ms.map (fun m => m.To)
        = (List.range n).map (fun i =>
            (⟨row + ((i + 1 : Nat) : Int) * dr, col + ((i + 1 : Nat) : Int) * dc⟩ : Coord)) ∧
      (∀ i : Nat, 1 ≤ i → i ≤ n → onBoard (row + (i : Int) * dr) (col + (i : Int) * dc)) := by
  obtain ⟨origin, ho⟩ := index_of_onBoard b row col hon
  obtain ⟨k, hk7, hrun, hstop⟩ := exists_run b row col dr dc hon hd
  have hline := lineMove_of_run b row col dr dc fuel k origin ho (by omega) hrun hstop
  cases hen : isEnemyAt b origin.Color (row + ((k + 1 : Nat) : Int) * dr)
      (col + ((k + 1 : Nat) : Int) * dc) with
  | false =>
    rw [hen] at hline
    simp only [Bool.false_eq_true, if_false, List.append_nil] at hline
    exact ⟨_, k, hline, length_quietRun _ _ _ _ _, map_to_quietRun _ _ _ _ _,
      fun i h1 hik => isEmptyAt_onBoard b _ _ (hrun i h1 hik)⟩
  | true =>
    rw [hen] at hline
    simp only [if_true] at hline
    refine ⟨_, k + 1, hline, ?_, ?_, ?_⟩
    · simp [length_quietRun]
    · rw [List.map_append, map_to_quietRun, List.range_succ, List.map_append]
      rfl
    · intro i h1 hik
      by_cases hlt : i ≤ k
      · exact isEmptyAt_onBoard b _ _ (hrun i h1 hlt)
      · obtain rfl : i = k + 1 := by omega
        exact isEnemyAt_onBoard b _ _ _ hen

theorem lineMove_shape_le (row col dr dc : Int) (n : Nat) (hon : onBoard row col)
    (hd : (dr, dc) ≠ (0, 0))
    (hin : ∀ i : Nat, 1 ≤ i → i ≤ n → onBoard (row + (i : Int) * dr) (col + (i : Int) * dc)) :
    n ≤ 7 := by
  by_contra hgt
  exact ray_leaves_board row col dr dc 8 hon hd (le_refl 8) (hin 8 (by omega) (by omega))

theorem lineMove_to_sublist (b : Board) (row col dr dc : Int) (fuel : Nat)
    (hon : onBoard row col) (hd : (dr, dc) ≠ (0, 0)) (hf : 8 ≤ fuel) :
    ∃ ms, lineMove fuel b row col dr dc = .ok ms ∧ ms.length ≤ 7 ∧
      List.Sublist (ms.map (fun m => m.To)) (rayTargets row col dr dc) := by
  obtain ⟨ms, n, hms, hlen, hto, hin⟩ := lineMove_shape b row col dr dc fuel hon hd hf
  have hn := lineMove_shape_le row col dr dc n hon hd hin
  refine ⟨ms, hms, by omega, ?_⟩
  rw [hto]
  unfold rayTargets
  exact List.Sublist.map _ (List.range_sublist.2 hn)

/-! ## Membership in the result of the pawn generator -/

/-- The moves of a white pawn, one disjunct per `append` of the white branch of
`PawnMoves`. -/
theorem mem_PawnMoves_white (b : Board) (row col : Int) (origin : Piece)
    (ho : b.index row col = .ok origin) (hw : origin.Color = Color.WhiteTeam) :
    ∃ ms, PawnMoves b row col = .ok ms ∧ ∀ m : ValidMove, m ∈ ms ↔
      (((isEmptyAt b (row + 1) col || isEnemyAt b Color.WhiteTeam (row + 1) col) = true ∧
          m = ⟨⟨row, col⟩, ⟨row + 1, col⟩, false, false⟩) ∨
       (isEnemyAt b Color.WhiteTeam (row + 1) (col - 1) = true ∧
          m = ⟨⟨row, col⟩, ⟨row + 1, col - 1⟩, true, false⟩) ∨
       (isEnemyAt b Color.WhiteTeam (row + 1) (col + 1) = true ∧
          m = ⟨⟨row, col⟩, ⟨row + 1, col + 1⟩, true, false⟩) ∨
       ((row = 1 ∧ isEmptyAt b (row + 2) col = true) ∧
          m = ⟨⟨row, col⟩, ⟨row + 2, col⟩, true, false⟩) ∨
       ((col + 1 < 8 ∧ flagAt b row (col + 1) = true ∧
            isEmptyAt b (row + 1) (col + 1) = true) ∧
          m = ⟨⟨row, col⟩, ⟨row + 1, col + 1⟩, false, true⟩) ∨
       ((col - 1 ≥ 0 ∧ flagAt b row (col - 1) = true ∧
            isEmptyAt b (row + 1) (col - 1) = true) ∧
          m = ⟨⟨row, col⟩, ⟨row + 1, col - 1⟩, false, true⟩)) := by
  refine ⟨_, PawnMoves_white b row col origin ho hw, fun m => ?_⟩
  simp only [List.mem_append, mem_emitIf, Bool.and_eq_true, decide_eq_true_eq, Size,
    or_assoc, and_assoc]

/-- The moves of a pawn that is not white, one disjunct per `append` of the `else`
branch of `PawnMoves`. -/
theorem mem_PawnMoves_black (b : Board) (row col : Int) (origin : Piece)
    (ho : b.index row col = .ok origin) (hw : origin.Color ≠ Color.WhiteTeam) :
    ∃ ms, PawnMoves b row col = .ok ms ∧ ∀ m : ValidMove, m ∈ ms ↔
      (((isEmptyAt b (row - 1) col || isEnemyAt b origin.Color (row - 1) col) = true ∧
          m = ⟨⟨row, col⟩, ⟨row - 1, col⟩, false, false⟩) ∨
       (isEnemyAt b origin.Color (row - 1) (col - 1) = true ∧
          m = ⟨⟨row, col⟩, ⟨row - 1, col - 1⟩, true, false⟩) ∨
       (isEnemyAt b origin.Color (row - 1) (col + 1) = true ∧
          m = ⟨⟨row, col⟩, ⟨row - 1, col + 1⟩, true, false⟩) ∨
       ((row = 6 ∧ isEmptyAt b (row - 2) col = true) ∧
          m = ⟨⟨row, col⟩, ⟨row - 2, col⟩, true, false⟩) ∨
       ((col + 1 < 8 ∧ flagAt b row (col + 1) = true ∧
            isEmptyAt b (row - 1) (col + 1) = true) ∧
          m = ⟨⟨row, col⟩, ⟨row + 1, col + 1⟩, false, true⟩) ∨
       ((col - 1 ≥ 0 ∧ flagAt b row (col - 1) = true ∧
            isEmptyAt b (row - 1) (col - 1) = true) ∧
          m = ⟨⟨row, col⟩, ⟨row + 1, col - 1⟩, false, true⟩)) := by
  refine ⟨_, PawnMoves_black b row col origin ho hw, fun m => ?_⟩
  simp only [List.mem_append, mem_emitIf, Bool.and_eq_true, decide_eq_true_eq, Size,
    or_assoc, and_assoc]

theorem tryMove_valid_iff (b : Board) (c : Color) (row col : Int) :
    (∃ capture, tryMove b c row col = .ok (true, capture))
      ↔ (isEmptyAt b row col || isEnemyAt b c row col) = true := by
  rw [tryMove_eq]
  constructor
  · rintro ⟨capture, h⟩
    injection h with h
    injection h with h1 _
  · intro h
    exact ⟨_, by rw [h]⟩

/-! ## The generators return -/

theorem RookMoves_of_rays (b : Board) (row col : Int) (fuel : Nat)
    (up down left right : List ValidMove)
    (h1 : lineMove fuel b row col (-1) 0 = .ok up)
    (h2 : lineMove fuel b row col 1 0 = .ok down)
    (h3 : lineMove fuel b row col 0 (-1) = .ok left)
    (h4 : lineMove fuel b row col 0 1 = .ok right) :
    RookMoves fuel b row col = .ok (up ++ down ++ left ++ right) := by
  unfold RookMoves
  rw [h1, h2, h3, h4]
  simp [bind, Except.bind, pure, Except.pure]

theorem BishopMoves_of_rays (b : Board) (row col : Int) (fuel : Nat)
    (upLeft upRight downLeft downRight : List ValidMove)
    (h5 : lineMove fuel b row col (-1) (-1) = .ok upLeft)
    (h6 : lineMove fuel b row col (-1) 1 = .ok upRight)
    (h7 : lineMove fuel b row col 1 (-1) = .ok downLeft)
    (h8 : lineMove fuel b row col 1 1 = .ok downRight) :
    BishopMoves fuel b row col = .ok (upLeft ++ upRight ++ downLeft ++ downRight) := by
  unfold BishopMoves
  rw [h5, h6, h7, h8]
  simp [bind, Except.bind, pure, Except.pure]

theorem QueenMoves_of_rays (b : Board) (row col : Int) (fuel : Nat)
    (up down left right upLeft upRight downLeft downRight : List ValidMove)
    (h1 : lineMove fuel b row col (-1) 0 = .ok up)
    (h2 : lineMove fuel b row col 1 0 = .ok down)
    (h3 : lineMove fuel b row col 0 (-1) = .ok left)
    (h4 : lineMove fuel b row col 0 1 = .ok right)
    (h5 : lineMove fuel b row col (-1) (-1) = .ok upLeft)
    (h6 : lineMove fuel b row col (-1) 1 = .ok upRight)
    (h7 : lineMove fuel b row col 1 (-1) = .ok downLeft)
    (h8 : lineMove fuel b row col 1 1 = .ok downRight) :
    QueenMoves fuel b row col
      = .ok (up ++ down ++ left ++ right ++ upLeft ++ upRight ++ downLeft ++ downRight) := by
  unfold QueenMoves
  rw [h1, h2, h3, h4, h5, h6, h7, h8]
  simp [bind, Except.bind, pure, Except.pure]

theorem PawnMoves_ok (b : Board) (row col : Int) (hon : onBoard row col) :
    ∃ ms, PawnMoves b row col = .ok ms := by
  obtain ⟨origin, ho⟩ := index_of_onBoard b row col hon
  by_cases hw : origin.Color = Color.WhiteTeam
  · exact ⟨_, PawnMoves_white b row col origin ho hw⟩
  · exact ⟨_, PawnMoves_black b row col origin ho hw⟩

theorem KnightMoves_ok (b : Board) (row col : Int) (hon : onBoard row col) :
    ∃ ms, KnightMoves b row col = .ok ms := by
  obtain ⟨origin, ho⟩ := index_of_onBoard b row col hon
  exact ⟨_, KnightMoves_eq b row col origin ho⟩

theorem KingMoves_ok (b : Board) (row col : Int) (hon : onBoard row col) :
    ∃ ms, KingMoves b row col = .ok ms := by
  obtain ⟨origin, ho⟩ := index_of_onBoard b row col hon
  exact ⟨_, KingMoves_eq b row col origin ho⟩

theorem RookMoves_ok (b : Board) (row col : Int) (fuel : Nat) (hon : onBoard row col)
    (hf : 8 ≤ fuel) : ∃ ms, RookMoves fuel b row col = .ok ms := by
  obtain ⟨up, h1⟩ := lineMove_ok b row col (-1) 0 fuel hon (by decide) hf
  obtain ⟨down, h2⟩ := lineMove_ok b row col 1 0 fuel hon (by decide) hf
  obtain ⟨left, h3⟩ := lineMove_ok b row col 0 (-1) fuel hon (by decide) hf
  obtain ⟨right, h4⟩ := lineMove_ok b row col 0 1 fuel hon (by decide) hf
  exact ⟨_, RookMoves_of_rays b row col fuel _ _ _ _ h1 h2 h3 h4⟩

theorem BishopMoves_ok (b : Board) (row col : Int) (fuel : Nat) (hon : onBoard row col)
    (hf : 8 ≤ fuel) : ∃ ms, BishopMoves fuel b row col = .ok ms := by
  obtain ⟨upLeft, h5⟩ := lineMove_ok b row col (-1) (-1) fuel hon (by decide) hf
  obtain ⟨upRight, h6⟩ := lineMove_ok b row col (-1) 1 fuel hon (by decide) hf
  obtain ⟨downLeft, h7⟩ := lineMove_ok b row col 1 (-1) fuel hon (by decide) hf
  obtain ⟨downRight, h8⟩ := lineMove_ok b row col 1 1 fuel hon (by decide) hf
  exact ⟨_, BishopMoves_of_rays b row col fuel _ _ _ _ h5 h6 h7 h8⟩

theorem QueenMoves_ok (b : Board) (row col : Int) (fuel : Nat) (hon : onBoard row col)
    (hf : 8 ≤ fuel) : ∃ ms, QueenMoves fuel b row col = .ok ms := by
  obtain ⟨up, h1⟩ := lineMove_ok b row col (-1) 0 fuel hon (by decide) hf
  obtain ⟨down, h2⟩ := lineMove_ok b row col 1 0 fuel hon (by decide) hf
  obtain ⟨left, h3⟩ := lineMove_ok b row col 0 (-1) fuel hon (by decide) hf
  obtain ⟨right, h4⟩ := lineMove_ok b row col 0 1 fuel hon (by decide) hf
  obtain ⟨upLeft, h5⟩ := lineMove_ok b row col (-1) (-1) fuel hon (by decide) hf
  obtain ⟨upRight, h6⟩ := lineMove_ok b row col (-1) 1 fuel hon (by decide) hf
  obtain ⟨downLeft, h7⟩ := lineMove_ok b row col 1 (-1) fuel hon (by decide) hf
  obtain ⟨downRight, h8⟩ := lineMove_ok b row col 1 1 fuel hon (by decide) hf
  exact ⟨_, QueenMoves_of_rays b row col fuel _ _ _ _ _ _ _ _ h1 h2 h3 h4 h5 h6 h7 h8⟩

/-! ## No generator reaches the panic of the dispatcher -/

theorem index_ne_invalid (b : Board) (row col : Int) :
    b.index row col ≠ .error .invalidPiece := by
  unfold Board.index
  split
  · intro h; cases h
  · intro h; cases h

theorem bind_ne_invalid {α β : Type} (x : Except Fault α) (f : α → Except Fault β)
    (hx : x ≠ .error .invalidPiece) (hf : ∀ a, f a ≠ .error .invalidPiece) :
    (x >>= f) ≠ .error .invalidPiece := by
  cases x with
  | error e =>
    intro h
    apply hx
    simpa [bind, Except.bind] using h
  | ok a => exact hf a

theorem lineMoveLoop_ne_invalid (b : Board) (color : Color) (row col dr dc : Int) :
    ∀ (fuel : Nat) (toRow toCol : Int) (acc : List ValidMove),
      lineMoveLoop b color row col dr dc fuel toRow toCol acc ≠ .error .invalidPiece := by
  intro fuel
  induction fuel with
  | zero =>
    intro toRow toCol acc h
    unfold lineMoveLoop at h
    cases h
  | succ f ih =>
    intro toRow toCol acc
    cases he : isEmptyAt b (toRow + dr) (toCol + dc) with
    | true =>
      rw [lineMoveLoop_step_go b color row col dr dc f toRow toCol acc he]
      exact ih _ _ _
    | false =>
      rw [lineMoveLoop_step_stop b color row col dr dc f toRow toCol acc he]
      intro h
      cases h

theorem lineMove_ne_invalid (b : Board) (row col dr dc : Int) (fuel : Nat) :
    lineMove fuel b row col dr dc ≠ .error .invalidPiece := by
  unfold lineMove
  exact bind_ne_invalid _ _ (index_ne_invalid b row col)
    (fun _ => lineMoveLoop_ne_invalid b _ row col dr dc fuel row col [])

theorem tryAndAppend_ne_invalid (vm : List ValidMove) (b : Board) (row col dr dc : Int) :
    tryAndAppend vm b row col dr dc ≠ .error .invalidPiece := by
  cases h : b.index row col with
  | error e =>
    unfold tryAndAppend
    rw [h]
    intro h2
    have : e = Fault.invalidPiece := by simpa [bind, Except.bind] using h2
    rw [this] at h
    exact index_ne_invalid b row col h
  | ok origin =>
    rw [tryAndAppend_eq vm b row col dr dc origin h]
    intro h2
    cases h2

theorem pure_ne_invalid {α : Type} (a : α) :
    (pure a : Except Fault α) ≠ .error .invalidPiece := by
  intro h
  cases h

theorem RookMoves_ne_invalid (b : Board) (row col : Int) (fuel : Nat) :
    RookMoves fuel b row col ≠ .error .invalidPiece := by
  unfold RookMoves
  refine bind_ne_invalid _ _ (lineMove_ne_invalid _ _ _ _ _ _) (fun _ => ?_)
  refine bind_ne_invalid _ _ (lineMove_ne_invalid _ _ _ _ _ _) (fun _ => ?_)
  refine bind_ne_invalid _ _ (lineMove_ne_invalid _ _ _ _ _ _) (fun _ => ?_)
  refine bind_ne_invalid _ _ (lineMove_ne_invalid _ _ _ _ _ _) (fun _ => ?_)
  exact pure_ne_invalid _

theorem BishopMoves_ne_invalid (b : Board) (row col : Int) (fuel : Nat) :
    BishopMoves fuel b row col ≠ .error .invalidPiece := by
  unfold BishopMoves
  refine bind_ne_invalid _ _ (lineMove_ne_invalid _ _ _ _ _ _) (fun _ => ?_)
  refine bind_ne_invalid _ _ (lineMove_ne_invalid _ _ _ _ _ _) (fun _ => ?_)
  refine bind_ne_invalid _ _ (lineMove_ne_invalid _ _ _ _ _ _) (fun _ => ?_)
  refine bind_ne_invalid _ _ (lineMove_ne_invalid _ _ _ _ _ _) (fun _ => ?_)
  exact pure_ne_invalid _

theorem QueenMoves_ne_invalid (b : Board) (row col : Int) (fuel : Nat) :
    QueenMoves fuel b row col ≠ .error .invalidPiece := by
  unfold QueenMoves
  refine bind_ne_invalid _ _ (lineMove_ne_invalid _ _ _ _ _ _) (fun _ => ?_)
  refine bind_ne_invalid _ _ (lineMove_ne_invalid _ _ _ _ _ _) (fun _ => ?_)
  refine bind_ne_invalid _ _ (lineMove_ne_invalid _ _ _ _ _ _) (fun _ => ?_)
  refine bind_ne_invalid _ _ (lineMove_ne_invalid _ _ _ _ _ _) (fun _ => ?_)
  refine bind_ne_invalid _ _ (lineMove_ne_invalid _ _ _ _ _ _) (fun _ => ?_)
  refine bind_ne_invalid _ _ (lineMove_ne_invalid _ _ _ _ _ _) (fun _ => ?_)
  refine bind_ne_invalid _ _ (lineMove_ne_invalid _ _ _ _ _ _) (fun _ => ?_)
  refine bind_ne_invalid _ _ (lineMove_ne_invalid _ _ _ _ _ _) (fun _ => ?_)
  exact pure_ne_invalid _

theorem KnightMoves_ne_invalid (b : Board) (row col : Int) :
    KnightMoves b row col ≠ .error .invalidPiece := by
  unfold KnightMoves
  refine bind_ne_invalid _ _ (tryAndAppend_ne_invalid _ _ _ _ _ _) (fun _ => ?_)
  refine bind_ne_invalid _ _ (tryAndAppend_ne_invalid _ _ _ _ _ _) (fun _ => ?_)
  refine bind_ne_invalid _ _ (tryAndAppend_ne_invalid _ _ _ _ _ _) (fun _ => ?_)
  refine bind_ne_invalid _ _ (tryAndAppend_ne_invalid _ _ _ _ _ _) (fun _ => ?_)
  refine bind_ne_invalid _ _ (tryAndAppend_ne_invalid _ _ _ _ _ _) (fun _ => ?_)
  refine bind_ne_invalid _ _ (tryAndAppend_ne_invalid _ _ _ _ _ _) (fun _ => ?_)
  refine bind_ne_invalid _ _ (tryAndAppend_ne_invalid _ _ _ _ _ _) (fun _ => ?_)
  refine bind_ne_invalid _ _ (tryAndAppend_ne_invalid _ _ _ _ _ _) (fun _ => ?_)
  exact pure_ne_invalid _

theorem KingMoves_ne_invalid (b : Board) (row col : Int) :
    KingMoves b row col ≠ .error .invalidPiece := by
  unfold KingMoves
  refine bind_ne_invalid _ _ (tryAndAppend_ne_invalid _ _ _ _ _ _) (fun _ => ?_)
  refine bind_ne_invalid _ _ (tryAndAppend_ne_invalid _ _ _ _ _ _) (fun _ => ?_)
  refine bind_ne_invalid _ _ (tryAndAppend_ne_invalid _ _ _ _ _ _) (fun _ => ?_)
  refine bind_ne_invalid _ _ (tryAndAppend_ne_invalid _ _ _ _ _ _) (fun _ => ?_)
  refine bind_ne_invalid _ _ (tryAndAppend_ne_invalid _ _ _ _ _ _) (fun _ => ?_)
  refine bind_ne_invalid _ _ (tryAndAppend_ne_invalid _ _ _ _ _ _) (fun _ => ?_)
  refine bind_ne_invalid _ _ (tryAndAppend_ne_invalid _ _ _ _ _ _) (fun _ => ?_)
  refine bind_ne_invalid _ _ (tryAndAppend_ne_invalid _ _ _ _ _ _) (fun _ => ?_)
  exact pure_ne_invalid _

theorem PawnMoves_of_not_onBoard (b : Board) (row col : Int) (h : ¬ onBoard row col) :
    PawnMoves b row col = .error .indexOutOfRange := by
  unfold PawnMoves
  rw [index_of_not_onBoard b row col h]
  rfl

theorem PawnMoves_ne_invalid (b : Board) (row col : Int) :
    PawnMoves b row col ≠ .error .invalidPiece := by
  by_cases hon : onBoard row col
  · obtain ⟨ms, h⟩ := PawnMoves_ok b row col hon
    rw [h]
    intro h2
    cases h2
  · rw [PawnMoves_of_not_onBoard b row col hon]
    intro h2
    cases h2

/-! ## Facts about the result of one ray -/

theorem rayTargets_eq (row col dr dc : Int) :
    rayTargets row col dr dc = (rayOffsets dr dc).map (shiftBy row col) := by
  unfold rayTargets rayOffsets
  rw [List.map_map]
  rfl

theorem lineMove_result_shape (b : Board) (row col dr dc : Int) (fuel : Nat)
    (ms : List ValidMove) (hon : onBoard row col) (hd : (dr, dc) ≠ (0, 0)) (hf : 8 ≤ fuel)
    (hms : lineMove fuel b row col dr dc = .ok ms) :
    (∀ i : Nat, 1 ≤ i → i ≤ ms.length →
      onBoard (row + (i : Int) * dr) (col + (i : Int) * dc)) ∧
    List.Sublist (ms.map (fun m => m.To)) ((rayOffsets dr dc).map (shiftBy row col)) := by
  obtain ⟨ms1, n, h, hlen, hto, hin⟩ := lineMove_shape b row col dr dc fuel hon hd hf
  rw [h] at hms
  injection hms with e
  subst e
  subst hlen
  refine ⟨hin, ?_⟩
  rw [hto, ← rayTargets_eq]
  unfold rayTargets
  exact List.Sublist.map _
    (List.range_sublist.2 (lineMove_shape_le row col dr dc _ hon hd hin))

theorem ray_end_onBoard (row col dr dc : Int) (n : Nat) (hon : onBoard row col)
    (hin : ∀ i : Nat, 1 ≤ i → i ≤ n → onBoard (row + (i : Int) * dr) (col + (i : Int) * dc)) :
    onBoard (row + (n : Int) * dr) (col + (n : Int) * dc) := by
  rcases Nat.eq_zero_or_pos n with h | h
  · subst h
    simpa using hon
  · exact hin n h (le_refl n)

theorem lineMove_budget (b : Board) (row col dr dc : Int) (fuel : Nat) (ms : List ValidMove)
    (hon : onBoard row col) (hd : (dr, dc) ≠ (0, 0)) (hf : 8 ≤ fuel)
    (hms : lineMove fuel b row col dr dc = .ok ms) :
    lineMove 8 b row col dr dc = .ok ms := by
  obtain ⟨origin, ho⟩ := index_of_onBoard b row col hon
  obtain ⟨k, hk7, hrun, hstop⟩ := exists_run b row col dr dc hon hd
  rw [lineMove_of_run b row col dr dc fuel k origin ho (by omega) hrun hstop] at hms
  rw [lineMove_of_run b row col dr dc 8 k origin ho (by omega) hrun hstop]
  exact hms

theorem isEmptyAt_not_own (b : Board) (c : Color) (row col : Int)
    (h : isEmptyAt b row col = true) : isOwnAt b c row col = false := by
  unfold isEmptyAt at h
  unfold isOwnAt
  cases hp : b.index row col with
  | error e => rfl
  | ok p =>
    rw [hp] at h
    simp at h
    simp [h]

theorem isEnemyAt_not_own (b : Board) (c : Color) (row col : Int)
    (h : isEnemyAt b c row col = true) : isOwnAt b c row col = false := by
  unfold isEnemyAt at h
  unfold isOwnAt
  cases hp : b.index row col with
  | error e => rfl
  | ok p =>
    rw [hp] at h
    simp at h
    simp [h.2]

theorem isEmptyAt_of_not_own_not_enemy (b : Board) (c : Color) (row col : Int)
    (hon : onBoard row col) (hown : isOwnAt b c row col = false)
    (hen : isEnemyAt b c row col = false) : isEmptyAt b row col = true := by
  obtain ⟨p, hp⟩ := index_of_onBoard b row col hon
  unfold isOwnAt at hown
  unfold isEnemyAt at hen
  unfold isEmptyAt
  rw [hp] at hown hen ⊢
  by_cases hr : p.Rank = Rank.Empty
  · simp [hr]
  · by_cases hc : p.Color = c
    · simp [hr, hc] at hown
    · simp [hr, hc] at hen

theorem respectsOccupancy_of_empty (b : Board) (c : Color) (row col r k : Int)
    (h : isEmptyAt b r k = true) :
    respectsOccupancy b c row col ⟨⟨row, col⟩, ⟨r, k⟩, false, false⟩ := by
  refine ⟨rfl, rfl, isEmptyAt_not_own b c r k h, ?_, fun _ => h⟩
  simp [isEmptyAt_not_enemy b c r k h]

theorem respectsOccupancy_of_enemy (b : Board) (c : Color) (row col r k : Int)
    (h : isEnemyAt b c r k = true) :
    respectsOccupancy b c row col ⟨⟨row, col⟩, ⟨r, k⟩, true, false⟩ := by
  refine ⟨rfl, rfl, isEnemyAt_not_own b c r k h, ?_, fun hc => ?_⟩
  · simp [h]
  · cases hc

theorem lineMove_respects (b : Board) (row col dr dc : Int) (fuel : Nat) (origin : Piece)
    (ms : List ValidMove) (ho : b.index row col = .ok origin) (hd : (dr, dc) ≠ (0, 0))
    (hf : 8 ≤ fuel) (hms : lineMove fuel b row col dr dc = .ok ms) :
    ∀ m ∈ ms, respectsOccupancy b origin.Color row col m := by
  have hon := onBoard_of_index b row col origin ho
  obtain ⟨k, hk7, hrun, hstop⟩ := exists_run b row col dr dc hon hd
  rw [lineMove_of_run b row col dr dc fuel k origin ho (by omega) hrun hstop] at hms
  injection hms with e
  subst e
  intro m hm
  rcases List.mem_append.1 hm with h | h
  · obtain ⟨i, h1, hik, rfl⟩ := (mem_quietRun row col dr dc k m).1 h
    exact respectsOccupancy_of_empty b _ row col _ _ (hrun i h1 hik)
  · by_cases hen : isEnemyAt b origin.Color (row + ((k + 1 : Nat) : Int) * dr)
        (col + ((k + 1 : Nat) : Int) * dc) = true
    · rw [if_pos hen, List.mem_singleton] at h
      subst h
      exact respectsOccupancy_of_enemy b _ row col _ _ hen
    · rw [if_neg hen] at h
      cases h

theorem offsetMoves_respects (b : Board) (c : Color) (row col : Int)
    (ds : List (Int × Int)) :
    ∀ m ∈ offsetMoves b c row col ds, respectsOccupancy b c row col m := by
  intro m hm
  obtain ⟨d, _, hmd⟩ := (mem_offsetMoves b c row col m ds).1 hm
  obtain ⟨hon, hown, rfl⟩ := (mem_offsetMove b c row col d.1 d.2 m).1 hmd
  refine ⟨rfl, rfl, hown, Iff.rfl, fun hc => ?_⟩
  exact isEmptyAt_of_not_own_not_enemy b c _ _ hon hown hc

/-! ## The sliding generators as concatenations of rays -/

theorem RookMoves_rays (b : Board) (row col : Int) (fuel : Nat) (hon : onBoard row col)
    (hf : 8 ≤ fuel) :
    ∃ up down left right : List ValidMove,
      lineMove fuel b row col (-1) 0 = .ok up ∧
      lineMove fuel b row col 1 0 = .ok down ∧
      lineMove fuel b row col 0 (-1) = .ok left ∧
      lineMove fuel b row col 0 1 = .ok right ∧
      RookMoves fuel b row col = .ok (up ++ down ++ left ++ right) := by
  obtain ⟨up, h1⟩ := lineMove_ok b row col (-1) 0 fuel hon (by decide) hf
  obtain ⟨down, h2⟩ := lineMove_ok b row col 1 0 fuel hon (by decide) hf
  obtain ⟨left, h3⟩ := lineMove_ok b row col 0 (-1) fuel hon (by decide) hf
  obtain ⟨right, h4⟩ := lineMove_ok b row col 0 1 fuel hon (by decide) hf
  exact ⟨up, down, left, right, h1, h2, h3, h4,
    RookMoves_of_rays b row col fuel _ _ _ _ h1 h2 h3 h4⟩

theorem BishopMoves_rays (b : Board) (row col : Int) (fuel : Nat) (hon : onBoard row col)
    (hf : 8 ≤ fuel) :
    ∃ upLeft upRight downLeft downRight : List ValidMove,
      lineMove fuel b row col (-1) (-1) = .ok upLeft ∧
      lineMove fuel b row col (-1) 1 = .ok upRight ∧
      lineMove fuel b row col 1 (-1) = .ok downLeft ∧
      lineMove fuel b row col 1 1 = .ok downRight ∧
      BishopMoves fuel b row col = .ok (upLeft ++ upRight ++ downLeft ++ downRight) := by
  obtain ⟨upLeft, h5⟩ := lineMove_ok b row col (-1) (-1) fuel hon (by decide) hf
  obtain ⟨upRight, h6⟩ := lineMove_ok b row col (-1) 1 fuel hon (by decide) hf
  obtain ⟨downLeft, h7⟩ := lineMove_ok b row col 1 (-1) fuel hon (by decide) hf
  obtain ⟨downRight, h8⟩ := lineMove_ok b row col 1 1 fuel hon (by decide) hf
  exact ⟨upLeft, upRight, downLeft, downRight, h5, h6, h7, h8,
    BishopMoves_of_rays b row col fuel _ _ _ _ h5 h6 h7 h8⟩

theorem QueenMoves_of_rook_bishop (b : Board) (row col : Int) (fuel : Nat)
    (rs bs : List ValidMove) (hon : onBoard row col) (hf : 8 ≤ fuel)
    (hr : RookMoves fuel b row col = .ok rs) (hb : BishopMoves fuel b row col = .ok bs) :
    QueenMoves fuel b row col = .ok (rs ++ bs) := by
  obtain ⟨up, down, left, right, h1, h2, h3, h4, hr2⟩ := RookMoves_rays b row col fuel hon hf
  obtain ⟨upLeft, upRight, downLeft, downRight, h5, h6, h7, h8, hb2⟩ :=
    BishopMoves_rays b row col fuel hon hf
  rw [hr] at hr2
  rw [hb] at hb2
  injection hr2 with e1
  injection hb2 with e2
  rw [QueenMoves_of_rays b row col fuel _ _ _ _ _ _ _ _ h1 h2 h3 h4 h5 h6 h7 h8, e1, e2]
  simp only [List.append_assoc]

theorem RookMoves_facts (b : Board) (row col : Int) (fuel : Nat) (origin : Piece)
    (ho : b.index row col = .ok origin) (hf : 8 ≤ fuel) :
    ∃ ms, RookMoves fuel b row col = .ok ms ∧ ms.length ≤ 14 ∧
      List.Sublist (ms.map (fun m => m.To)) (rookRayOffsets.map (shiftBy row col)) ∧
      ∀ m ∈ ms, respectsOccupancy b origin.Color row col m := by
  have hon := onBoard_of_index b row col origin ho
  obtain ⟨up, down, left, right, h1, h2, h3, h4, hr⟩ := RookMoves_rays b row col fuel hon hf
  obtain ⟨i1, s1⟩ := lineMove_result_shape b row col (-1) 0 fuel up hon (by decide) hf h1
  obtain ⟨i2, s2⟩ := lineMove_result_shape b row col 1 0 fuel down hon (by decide) hf h2
  obtain ⟨i3, s3⟩ := lineMove_result_shape b row col 0 (-1) fuel left hon (by decide) hf h3
  obtain ⟨i4, s4⟩ := lineMove_result_shape b row col 0 1 fuel right hon (by decide) hf h4
  have e1 := ray_end_onBoard row col (-1) 0 _ hon i1
  have e2 := ray_end_onBoard row col 1 0 _ hon i2
  have e3 := ray_end_onBoard row col 0 (-1) _ hon i3
  have e4 := ray_end_onBoard row col 0 1 _ hon i4
  refine ⟨_, hr, ?_, ?_, ?_⟩
  · unfold onBoard at e1 e2 e3 e4
    simp only [Size] at e1 e2 e3 e4
    simp only [List.length_append]
    omega
  · simp only [List.map_append, rookRayOffsets]
    exact ((s1.append s2).append s3).append s4
  · intro m hm
    simp only [List.mem_append] at hm
    rcases hm with ((hm | hm) | hm) | hm
    · exact lineMove_respects b row col _ _ fuel origin up ho (by decide) hf h1 m hm
    · exact lineMove_respects b row col _ _ fuel origin down ho (by decide) hf h2 m hm
    · exact lineMove_respects b row col _ _ fuel origin left ho (by decide) hf h3 m hm
    · exact lineMove_respects b row col _ _ fuel origin right ho (by decide) hf h4 m hm

theorem BishopMoves_facts (b : Board) (row col : Int) (fuel : Nat) (origin : Piece)
    (ho : b.index row col = .ok origin) (hf : 8 ≤ fuel) :
    ∃ ms, BishopMoves fuel b row col = .ok ms ∧ ms.length ≤ 13 ∧
      List.Sublist (ms.map (fun m => m.To)) (bishopRayOffsets.map (shiftBy row col)) ∧
      ∀ m ∈ ms, respectsOccupancy b origin.Color row col m := by
  have hon := onBoard_of_index b row col origin ho
  obtain ⟨upLeft, upRight, downLeft, downRight, h1, h2, h3, h4, hr⟩ :=
    BishopMoves_rays b row col fuel hon hf
  obtain ⟨i1, s1⟩ := lineMove_result_shape b row col (-1) (-1) fuel upLeft hon (by decide) hf h1
  obtain ⟨i2, s2⟩ := lineMove_result_shape b row col (-1) 1 fuel upRight hon (by decide) hf h2
  obtain ⟨i3, s3⟩ := lineMove_result_shape b row col 1 (-1) fuel downLeft hon (by decide) hf h3
  obtain ⟨i4, s4⟩ := lineMove_result_shape b row col 1 1 fuel downRight hon (by decide) hf h4
  have e1 := ray_end_onBoard row col (-1) (-1) _ hon i1
  have e2 := ray_end_onBoard row col (-1) 1 _ hon i2
  have e3 := ray_end_onBoard row col 1 (-1) _ hon i3
  have e4 := ray_end_onBoard row col 1 1 _ hon i4
  refine ⟨_, hr, ?_, ?_, ?_⟩
  · unfold onBoard at hon e1 e2 e3 e4
    simp only [Size] at hon e1 e2 e3 e4
    simp only [List.length_append]
    omega
  · simp only [List.map_append, bishopRayOffsets]
    exact ((s1.append s2).append s3).append s4
  · intro m hm
    simp only [List.mem_append] at hm
    rcases hm with ((hm | hm) | hm) | hm
    · exact lineMove_respects b row col _ _ fuel origin upLeft ho (by decide) hf h1 m hm
    · exact lineMove_respects b row col _ _ fuel origin upRight ho (by decide) hf h2 m hm
    · exact lineMove_respects b row col _ _ fuel origin downLeft ho (by decide) hf h3 m hm
    · exact lineMove_respects b row col _ _ fuel origin downRight ho (by decide) hf h4 m hm

theorem QueenMoves_facts (b : Board) (row col : Int) (fuel : Nat) (origin : Piece)
    (ho : b.index row col = .ok origin) (hf : 8 ≤ fuel) :
    ∃ ms, QueenMoves fuel b row col = .ok ms ∧ ms.length ≤ 27 ∧
      List.Sublist (ms.map (fun m => m.To))
        ((rookRayOffsets ++ bishopRayOffsets).map (shiftBy row col)) ∧
      ∀ m ∈ ms, respectsOccupancy b origin.Color row col m := by
  have hon := onBoard_of_index b row col origin ho
  obtain ⟨rs, hr, lr, sr, pr⟩ := RookMoves_facts b row col fuel origin ho hf
  obtain ⟨bs, hb, lb, sb, pb⟩ := BishopMoves_facts b row col fuel origin ho hf
  refine ⟨_, QueenMoves_of_rook_bishop b row col fuel rs bs hon hf hr hb, ?_, ?_, ?_⟩
  · simp only [List.length_append]
    omega
  · simp only [List.map_append]
    exact sr.append sb
  · intro m hm
    rcases List.mem_append.1 hm with h | h
    · exact pr m h
    · exact pb m h

theorem shiftBy_injective (row col : Int) : Function.Injective (shiftBy row col) := by
  intro d e h
  unfold shiftBy at h
  injection h with h1 h2
  exact Prod.ext (by omega) (by omega)

theorem queenRayOffsets_nodup : (rookRayOffsets ++ bishopRayOffsets).Nodup := by
  decide

theorem nodup_of_sublist_offsets (row col : Int) (l : List Coord) (ds : List (Int × Int))
    (hds : ds.Nodup) (h : List.Sublist l (ds.map (shiftBy row col))) : l.Nodup :=
  List.Nodup.sublist h (List.Nodup.map (shiftBy_injective row col) hds)

/-! ## Destinations of a pawn are pairwise distinct -/

theorem nodup_to_emit6 (c1 c2 c3 c4 c5 c6 : Bool) (m1 m2 m3 m4 m5 m6 : ValidMove)
    (h12 : m1.To ≠ m2.To) (h13 : m1.To ≠ m3.To) (h14 : m1.To ≠ m4.To) (h15 : m1.To ≠ m5.To)
    (h16 : m1.To ≠ m6.To) (h23 : m2.To ≠ m3.To) (h24 : m2.To ≠ m4.To) (h25 : m2.To ≠ m5.To)
    (h26 : c2 = true → c6 = true → m2.To ≠ m6.To) (h34 : m3.To ≠ m4.To)
    (h35 : c3 = true → c5 = true → m3.To ≠ m5.To) (h36 : m3.To ≠ m6.To)
    (h45 : m4.To ≠ m5.To) (h46 : m4.To ≠ m6.To) (h56 : m5.To ≠ m6.To) :
    ((emitIf c1 m1 ++ emitIf c2 m2 ++ emitIf c3 m3 ++ emitIf c4 m4 ++ emitIf c5 m5
      ++ emitIf c6 m6).map (fun m => m.To)).Nodup := by
  cases c1 <;> cases c2 <;> cases c3 <;> cases c4 <;> cases c5 <;> cases c6 <;>
    simp_all [emitIf]

theorem coord_ne_of_row (r1 c1 r2 c2 : Int) (h : r1 ≠ r2) : (⟨r1, c1⟩ : Coord) ≠ ⟨r2, c2⟩ := by
  intro e
  injection e with e1 _
  exact h e1

theorem coord_ne_of_col (r1 c1 r2 c2 : Int) (h : c1 ≠ c2) : (⟨r1, c1⟩ : Coord) ≠ ⟨r2, c2⟩ := by
  intro e
  injection e with _ e2
  exact h e2

theorem PawnMoves_to_nodup (b : Board) (row col : Int) (hon : onBoard row col) :
    ∃ ms, PawnMoves b row col = .ok ms ∧ (ms.map (fun m => m.To)).Nodup := by
  obtain ⟨origin, ho⟩ := index_of_onBoard b row col hon
  by_cases hw : origin.Color = Color.WhiteTeam
  · refine ⟨_, PawnMoves_white b row col origin ho hw, ?_⟩
    apply nodup_to_emit6
    · exact coord_ne_of_col _ _ _ _ (by omega)
    · exact coord_ne_of_col _ _ _ _ (by omega)
    · exact coord_ne_of_row _ _ _ _ (by omega)
    · exact coord_ne_of_col _ _ _ _ (by omega)
    · exact coord_ne_of_col _ _ _ _ (by omega)
    · exact coord_ne_of_col _ _ _ _ (by omega)
    · exact coord_ne_of_row _ _ _ _ (by omega)
    · exact coord_ne_of_col _ _ _ _ (by omega)
    · intro hen hep
      simp only [Bool.and_eq_true] at hep
      rw [isEnemyAt_not_empty b _ _ _ hen] at hep
      exact absurd hep.2 (by simp)
    · exact coord_ne_of_row _ _ _ _ (by omega)
    · intro hen hep
      simp only [Bool.and_eq_true] at hep
      rw [isEnemyAt_not_empty b _ _ _ hen] at hep
      exact absurd hep.2 (by simp)
    · exact coord_ne_of_col _ _ _ _ (by omega)
    · exact coord_ne_of_row _ _ _ _ (by omega)
    · exact coord_ne_of_row _ _ _ _ (by omega)
    · exact coord_ne_of_col _ _ _ _ (by omega)
  · refine ⟨_, PawnMoves_black b row col origin ho hw, ?_⟩
    apply nodup_to_emit6
    · exact coord_ne_of_col _ _ _ _ (by omega)
    · exact coord_ne_of_col _ _ _ _ (by omega)
    · exact coord_ne_of_row _ _ _ _ (by omega)
    · exact coord_ne_of_col _ _ _ _ (by omega)
    · exact coord_ne_of_col _ _ _ _ (by omega)
    · exact coord_ne_of_col _ _ _ _ (by omega)
    · exact coord_ne_of_row _ _ _ _ (by omega)
    · exact coord_ne_of_col _ _ _ _ (by omega)
    · intro _ _
      exact coord_ne_of_row _ _ _ _ (by omega)
    · exact coord_ne_of_row _ _ _ _ (by omega)
    · intro _ _
      exact coord_ne_of_row _ _ _ _ (by omega)
    · exact coord_ne_of_col _ _ _ _ (by omega)
    · exact coord_ne_of_row _ _ _ _ (by omega)
    · exact coord_ne_of_row _ _ _ _ (by omega)
    · exact coord_ne_of_col _ _ _ _ (by omega)

/-! ## Where destinations are on the board -/

theorem onBoard_of_valid (b : Board) (c : Color) (row col : Int)
    (h : (isEmptyAt b row col || isEnemyAt b c row col) = true) : onBoard row col :=
  ((valid_iff_not_own b c row col).1 h).1

theorem onBoard_of_respectsOccupancy (b : Board) (c : Color) (row col : Int) (m : ValidMove)
    (h : respectsOccupancy b c row col m) : onBoard m.To.Row m.To.Col := by
  obtain ⟨_, _, _, hcap, hquiet⟩ := h
  cases hc : m.Capture with
  | true => exact isEnemyAt_onBoard b c _ _ (hcap.1 hc)
  | false => exact isEmptyAt_onBoard b _ _ (hquiet hc)

/-- Every destination returned by `PossibleMoves` for an on-board query is on the
board, except for the en-passant moves of a pawn that is not white. -/
theorem PossibleMoves_to_onBoard_or_black_enPassant (fuel : Nat) (b : Board) (p origin : Piece)
    (row col : Int) (ho : b.index row col = .ok origin) (hf : 8 ≤ fuel)
    (ms : List ValidMove) (hms : PossibleMoves fuel b p row col = .ok ms) :
    ∀ m ∈ ms, onBoard m.To.Row m.To.Col ∨
      (p.Rank = Rank.Pawn ∧ origin.Color ≠ Color.WhiteTeam ∧ m.EnPassant = true) := by
  intro m hm
  unfold PossibleMoves at hms
  cases hr : p.Rank <;> rw [hr] at hms <;> simp only at hms
  · cases hms
  · by_cases hw : origin.Color = Color.WhiteTeam
    · obtain ⟨ms1, h1, hmem⟩ := mem_PawnMoves_white b row col origin ho hw
      rw [h1] at hms
      injection hms with e
      subst e
      left
      rcases (hmem m).1 hm with h | h | h | h | h | h <;> obtain ⟨hc, rfl⟩ := h
      · exact onBoard_of_valid b _ _ _ hc
      · exact isEnemyAt_onBoard b _ _ _ hc
      · exact isEnemyAt_onBoard b _ _ _ hc
      · exact isEmptyAt_onBoard b _ _ hc.2
      · exact isEmptyAt_onBoard b _ _ hc.2.2
      · exact isEmptyAt_onBoard b _ _ hc.2.2
    · obtain ⟨ms1, h1, hmem⟩ := mem_PawnMoves_black b row col origin ho hw
      rw [h1] at hms
      injection hms with e
      subst e
      rcases (hmem m).1 hm with h | h | h | h | h | h <;> obtain ⟨hc, rfl⟩ := h
      · exact Or.inl (onBoard_of_valid b _ _ _ hc)
      · exact Or.inl (isEnemyAt_onBoard b _ _ _ hc)
      · exact Or.inl (isEnemyAt_onBoard b _ _ _ hc)
      · exact Or.inl (isEmptyAt_onBoard b _ _ hc.2)
      · exact Or.inr ⟨rfl, hw, rfl⟩
      · exact Or.inr ⟨rfl, hw, rfl⟩
  · rw [KnightMoves_eq b row col origin ho] at hms
    injection hms with e
    subst e
    exact Or.inl (onBoard_of_respectsOccupancy b _ row col m
      (offsetMoves_respects b _ row col _ m hm))
  · obtain ⟨ms1, h1, _, _, hp⟩ := BishopMoves_facts b row col fuel origin ho hf
    rw [h1] at hms
    injection hms with e
    subst e
    exact Or.inl (onBoard_of_respectsOccupancy b _ row col m (hp m hm))
  · obtain ⟨ms1, h1, _, _, hp⟩ := RookMoves_facts b row col fuel origin ho hf
    rw [h1] at hms
    injection hms with e
    subst e
    exact Or.inl (onBoard_of_respectsOccupancy b _ row col m (hp m hm))
  · obtain ⟨ms1, h1, _, _, hp⟩ := QueenMoves_facts b row col fuel origin ho hf
    rw [h1] at hms
    injection hms with e
    subst e
    exact Or.inl (onBoard_of_respectsOccupancy b _ row col m (hp m hm))
  · rw [KingMoves_eq b row col origin ho] at hms
    injection hms with e
    subst e
    exact Or.inl (onBoard_of_respectsOccupancy b _ row col m
      (offsetMoves_respects b _ row col _ m hm))

/-! ## C1: the step prober -/

/-- C1. For every board, moving colour and integers `row`, `col`: `tryMove`
returns `(false, false)` when `row` or `col` lies outside `[0, 8)`; otherwise,
with `target` the cell read at `(row, col)`, it returns `(true, false)` when
`target.Rank` is `Empty`, else `(true, true)` when `target.Color` differs from
the moving colour, else `(false, false)`.  Whenever it returns `capture = true`
it returns `valid = true`.  It never fails. -/
theorem tryMove_contract (b : Board) (c : Color) (row col : Int) :
    ((row < 0 ∨ 8 ≤ row ∨ col < 0 ∨ 8 ≤ col) → tryMove b c row col = .ok (false, false)) ∧
    (∀ target, b.index row col = .ok target → target.Rank = Rank.Empty →
      tryMove b c row col = .ok (true, false)) ∧
    (∀ target, b.index row col = .ok target → target.Rank ≠ Rank.Empty →
      target.Color ≠ c → tryMove b c row col = .ok (true, true)) ∧
    (∀ target, b.index row col = .ok target → target.Rank ≠ Rank.Empty →
      target.Color = c → tryMove b c row col = .ok (false, false)) ∧
    (∀ valid capture, tryMove b c row col = .ok (valid, capture) →
      capture = true → valid = true) := by
  refine ⟨?_, ?_, ?_, ?_, ?_⟩
  · intro h
    have hn : ¬ onBoard row col := by unfold onBoard; simp only [Size]; omega
    rw [tryMove_eq]
    unfold isEmptyAt isEnemyAt
    rw [index_of_not_onBoard b row col hn]
    rfl
  · intro target ht hr
    rw [tryMove_eq]
    unfold isEmptyAt isEnemyAt
    rw [ht]
    simp [hr]
  · intro target ht hr hc
    rw [tryMove_eq]
    unfold isEmptyAt isEnemyAt
    rw [ht]
    simp [hr, hc]
  · intro target ht hr hc
    rw [tryMove_eq]
    unfold isEmptyAt isEnemyAt
    rw [ht]
    simp [hr, hc]
  · intro valid capture h hcap
    rw [tryMove_eq] at h
    injection h with h
    injection h with h1 h2
    rw [← h1, h2, hcap]
    simp

/-- Witness of C1 on `sampleBoard` for a white mover: `(8, 0)` is off the board,
`(1, 1)` is empty, `(3, 0)` holds a black pawn and `(0, 2)` a white pawn. -/
theorem tryMove_contract_witness :
    tryMove sampleBoard Color.WhiteTeam 8 0 = .ok (false, false) ∧
    tryMove sampleBoard Color.WhiteTeam 1 1 = .ok (true, false) ∧
    tryMove sampleBoard Color.WhiteTeam 3 0 = .ok (true, true) ∧
    tryMove sampleBoard Color.WhiteTeam 0 2 = .ok (false, false) :=
  ⟨(tryMove_contract sampleBoard Color.WhiteTeam 8 0).1 (by decide),
   (tryMove_contract sampleBoard Color.WhiteTeam 1 1).2.1 emptyPiece (by decide) (by decide),
   (tryMove_contract sampleBoard Color.WhiteTeam 3 0).2.2.1
      ⟨Rank.Pawn, Color.BlackTeam, false⟩ (by decide) (by decide) (by decide),
   (tryMove_contract sampleBoard Color.WhiteTeam 0 2).2.2.2.1
      ⟨Rank.Pawn, Color.WhiteTeam, false⟩ (by decide) (by decide) (by decide)⟩

/-! ## C2: the ray caster -/

/-- C2. For every board, every on-board origin `(row, col)` and every direction
`(dr, dc) ≠ (0, 0)`, with an iteration budget of at least 8: there is a largest
number `k` (at most 7) such that the squares `origin + i * (dr, dc)`,
`i = 1..k`, are all on-board and `Empty`, and `lineMove` returns exactly the
`k` quiet moves to those squares in the order `i = 1..k`, followed by one
capturing move to `origin + (k + 1) * (dr, dc)` if and only if that square is
on-board and holds a piece whose colour differs from the colour of the origin
square; nothing else is returned. -/
theorem lineMove_spec (b : Board) (row col dr dc : Int) (fuel : Nat)
    (hon : onBoard row col) (hd : (dr, dc) ≠ (0, 0)) (hf : 8 ≤ fuel) :
    ∃ (origin : Piece) (k : Nat),
      b.index row col = .ok origin ∧ k ≤ 7 ∧
      (∀ i : Nat, 1 ≤ i → i ≤ k →
        isEmptyAt b (row + (i : Int) * dr) (col + (i : Int) * dc) = true) ∧
      (∀ j : Nat, (∀ i : Nat, 1 ≤ i → i ≤ j →
        isEmptyAt b (row + (i : Int) * dr) (col + (i : Int) * dc) = true) → j ≤ k) ∧
      lineMove fuel b row col dr dc
        = .ok (quietRun row col dr dc k
            ++ if isEnemyAt b origin.Color (row + ((k + 1 : Nat) : Int) * dr)
                  (col + ((k + 1 : Nat) : Int) * dc)
               then [captureTo row col dr dc (k + 1)] else []) := by
  obtain ⟨origin, ho⟩ := index_of_onBoard b row col hon
  obtain ⟨k, hk7, hrun, hstop⟩ := exists_run b row col dr dc hon hd
  refine ⟨origin, k, ho, hk7, hrun, ?_, ?_⟩
  · intro j hj
    by_contra hlt
    have := hj (k + 1) (by omega) (by omega)
    rw [hstop] at this
    cases this
  · exact lineMove_of_run b row col dr dc fuel k origin ho (by omega) hrun hstop

/-- Witness of C2: the ray from the rook at `(0, 0)` of `sampleBoard` in direction
`(1, 0)`. -/
theorem lineMove_spec_witness :
    onBoard 0 0 ∧ ((1, 0) : Int × Int) ≠ (0, 0) ∧
    ∃ (origin : Piece) (k : Nat),
      sampleBoard.index 0 0 = .ok origin ∧ k ≤ 7 ∧
      (∀ i : Nat, 1 ≤ i → i ≤ k →
        isEmptyAt sampleBoard (0 + (i : Int) * 1) (0 + (i : Int) * 0) = true) ∧
      (∀ j : Nat, (∀ i : Nat, 1 ≤ i → i ≤ j →
        isEmptyAt sampleBoard (0 + (i : Int) * 1) (0 + (i : Int) * 0) = true) → j ≤ k) ∧
      lineMove 8 sampleBoard 0 0 1 0
        = .ok (quietRun 0 0 1 0 k
            ++ if isEnemyAt sampleBoard origin.Color (0 + ((k + 1 : Nat) : Int) * 1)
                  (0 + ((k + 1 : Nat) : Int) * 0)
               then [captureTo 0 0 1 0 (k + 1)] else []) :=
  ⟨by decide, by decide, lineMove_spec sampleBoard 0 0 1 0 8 (by decide) (by decide) (by decide)⟩

/-! ## C3: a ray halts at the first occupied square -/

/-- C3, counterexample. On `sampleBoard` the white rook at `(0, 0)` looks along
its direction `(0, 1)`: `(0, 1)` is empty and the first occupied square
`(0, 2)` holds a friendly (white) pawn, yet the ray produces a move, the quiet
move to `(0, 1)`, and so does `RookMoves` for that direction. -/
theorem lineMove_friendly_blocker_counterexample :
    sampleBoard.index 0 0 = .ok ⟨Rank.Rook, Color.WhiteTeam, false⟩ ∧
    isEmptyAt sampleBoard 0 1 = true ∧
    isOwnAt sampleBoard Color.WhiteTeam 0 2 = true ∧
    lineMove 8 sampleBoard 0 0 0 1 = .ok [⟨⟨0, 0⟩, ⟨0, 1⟩, false, false⟩] ∧
    lineMove 8 sampleBoard 0 0 0 1 ≠ .ok [] ∧
    RookMoves 8 sampleBoard 0 0
      = .ok [⟨⟨0, 0⟩, ⟨1, 0⟩, false, false⟩, ⟨⟨0, 0⟩, ⟨2, 0⟩, false, false⟩,
             ⟨⟨0, 0⟩, ⟨3, 0⟩, true, false⟩, ⟨⟨0, 0⟩, ⟨0, 1⟩, false, false⟩] := by
  decide

/-- C3, amended. For every board, every on-board origin and every non-zero
direction (in particular each direction of a rook, bishop or queen), with an
iteration budget of at least 8: let `s`, the square `k + 1` of the ray, be the
first occupied square.  No move is produced to a square beyond `s`.  If `s`
holds a piece of another colour than the origin square, the moves of the
direction are the `k` quiet moves before `s` followed by the capture of `s`,
which is the only capturing move.  If `s` holds a piece of the colour of the
origin square, the moves of the direction are exactly the `k` quiet moves to
the empty squares before `s`: no capturing move and no move to `s`, and zero
moves exactly when `s` is adjacent to the origin. -/
theorem lineMove_first_occupied (b : Board) (row col dr dc : Int) (fuel k : Nat)
    (origin s : Piece) (hd : (dr, dc) ≠ (0, 0)) (hf : 8 ≤ fuel)
    (ho : b.index row col = .ok origin)
    (hrun : ∀ i : Nat, 1 ≤ i → i ≤ k →
      isEmptyAt b (row + (i : Int) * dr) (col + (i : Int) * dc) = true)
    (hs : b.index (row + ((k + 1 : Nat) : Int) * dr) (col + ((k + 1 : Nat) : Int) * dc)
      = .ok s)
    (hocc : s.Rank ≠ Rank.Empty) :
    ∃ ms, lineMove fuel b row col dr dc = .ok ms ∧
      (∀ m ∈ ms, ∀ j : Nat, k + 1 < j →
        m.To ≠ ⟨row + (j : Int) * dr, col + (j : Int) * dc⟩) ∧
      (s.Color ≠ origin.Color →
        ms = quietRun row col dr dc k ++ [captureTo row col dr dc (k + 1)] ∧
        ms.filter (fun m => m.Capture) = [captureTo row col dr dc (k + 1)]) ∧
      (s.Color = origin.Color →
        ms = quietRun row col dr dc k ∧
        (∀ m ∈ ms, m.Capture = false) ∧
        (∀ m ∈ ms, m.To ≠ ⟨row + ((k + 1 : Nat) : Int) * dr,
          col + ((k + 1 : Nat) : Int) * dc⟩) ∧
        (ms = [] ↔ k = 0)) := by
  have hon : onBoard row col := onBoard_of_index b row col origin ho
  have hons := onBoard_of_index b _ _ s hs
  have hk : k + 1 < 8 := by
    by_contra hge
    exact ray_leaves_board row col dr dc (k + 1) hon hd (by omega) hons
  have hstop : isEmptyAt b (row + ((k + 1 : Nat) : Int) * dr)
      (col + ((k + 1 : Nat) : Int) * dc) = false := by
    unfold isEmptyAt
    rw [hs]
    simp [hocc]
  have hline := lineMove_of_run b row col dr dc fuel k origin ho (by omega) hrun hstop
  have hquiet : ∀ m ∈ quietRun row col dr dc k, ∀ j : Nat, k < j →
      m.To ≠ ⟨row + (j : Int) * dr, col + (j : Int) * dc⟩ := by
    intro m hm j hj heq
    obtain ⟨i, _, hik, rfl⟩ := (mem_quietRun row col dr dc k m).1 hm
    have := ray_injective row col dr dc i j hd heq
    omega
  by_cases hc : s.Color = origin.Color
  · have hen : isEnemyAt b origin.Color (row + ((k + 1 : Nat) : Int) * dr)
        (col + ((k + 1 : Nat) : Int) * dc) = false := by
      unfold isEnemyAt
      rw [hs]
      simp [hc]
    rw [hen] at hline
    simp only [Bool.false_eq_true, if_false, List.append_nil] at hline
    refine ⟨_, hline, fun m hm j hj => hquiet m hm j (by omega), fun hne => absurd hc hne,
      fun _ => ⟨rfl, ?_, fun m hm => hquiet m hm (k + 1) (by omega), ?_⟩⟩
    · intro m hm
      obtain ⟨i, _, _, rfl⟩ := (mem_quietRun row col dr dc k m).1 hm
      rfl
    · rw [← List.length_eq_zero, length_quietRun]
  · have hen : isEnemyAt b origin.Color (row + ((k + 1 : Nat) : Int) * dr)
        (col + ((k + 1 : Nat) : Int) * dc) = true := by
      unfold isEnemyAt
      rw [hs]
      simp [hc, hocc]
    rw [hen] at hline
    simp only [if_true] at hline
    refine ⟨_, hline, ?_, fun _ => ⟨rfl, ?_⟩, fun h => absurd h hc⟩
    · intro m hm j hj
      rcases List.mem_append.1 hm with h | h
      · exact hquiet m h j (by omega)
      · rw [List.mem_singleton] at h
        subst h
        intro heq
        have := ray_injective row col dr dc (k + 1) j hd heq
        omega
    · rw [List.filter_append, filter_capture_quietRun]
      simp [captureTo]

/-- Witness of C3 as amended: the ray from the rook at `(0, 0)` of `sampleBoard` in
direction `(0, 1)`, blocked by the white pawn at `(0, 2)` after one empty
square. -/
theorem lineMove_first_occupied_witness :
    ∃ ms, lineMove 8 sampleBoard 0 0 0 1 = .ok ms ∧
      (∀ m ∈ ms, ∀ j : Nat, 1 + 1 < j →
        m.To ≠ ⟨0 + (j : Int) * 0, 0 + (j : Int) * 1⟩) ∧
      ((⟨Rank.Pawn, Color.WhiteTeam, false⟩ : Piece).Color
          ≠ (⟨Rank.Rook, Color.WhiteTeam, false⟩ : Piece).Color →
        ms = quietRun 0 0 0 1 1 ++ [captureTo 0 0 0 1 (1 + 1)] ∧
        ms.filter (fun m => m.Capture) = [captureTo 0 0 0 1 (1 + 1)]) ∧
      ((⟨Rank.Pawn, Color.WhiteTeam, false⟩ : Piece).Color
          = (⟨Rank.Rook, Color.WhiteTeam, false⟩ : Piece).Color →
        ms = quietRun 0 0 0 1 1 ∧
        (∀ m ∈ ms, m.Capture = false) ∧
        (∀ m ∈ ms, m.To ≠ ⟨0 + ((1 + 1 : Nat) : Int) * 0,
          0 + ((1 + 1 : Nat) : Int) * 1⟩) ∧
        (ms = [] ↔ 1 = 0)) :=
  lineMove_first_occupied sampleBoard 0 0 0 1 8 1 ⟨Rank.Rook, Color.WhiteTeam, false⟩
    ⟨Rank.Pawn, Color.WhiteTeam, false⟩ (by decide) (by decide) (by decide)
    (fun i h1 hk => by
      obtain rfl : i = 1 := by omega
      decide)
    (by decide) (by decide)

/-! ## C4: a lone rook -/

/-- C4. For every on-board square `(row, col)`, on a board whose only non-`Empty`
square is a rook at `(row, col)`, with an iteration budget of at least 8,
`RookMoves` returns exactly 14 moves, all with `Capture = false`: the `row`
squares above, the `7 - row` squares below, the `col` squares to the left and
the `7 - col` squares to the right.  At the corner `(0, 0)` these are the 7
moves along `(1, 0)` followed by the 7 moves along `(0, 1)`, and the rays
along `(-1, 0)` and `(0, -1)` are empty. -/
theorem RookMoves_lone_rook (b : Board) (row col : Int) (fuel : Nat) (rook : Piece)
    (hf : 8 ≤ fuel) (hon : onBoard row col)
    (ho : b.index row col = .ok rook) (_hrook : rook.Rank = Rank.Rook)
    (hlone : ∀ (r c : Int) (p : Piece), b.index r c = .ok p → (r, c) ≠ (row, col) →
      p.Rank = Rank.Empty) :
    ∃ ms, RookMoves fuel b row col = .ok ms ∧ ms.length = 14 ∧
      (∀ m ∈ ms, m.Capture = false) ∧
      ms = quietRun row col (-1) 0 row.toNat ++ quietRun row col 1 0 (7 - row).toNat
            ++ quietRun row col 0 (-1) col.toNat ++ quietRun row col 0 1 (7 - col).toNat ∧
      (row = 0 → col = 0 →
        lineMove fuel b row col (-1) 0 = .ok [] ∧
        lineMove fuel b row col 0 (-1) = .ok [] ∧
        ms = quietRun 0 0 1 0 7 ++ quietRun 0 0 0 1 7) := by
  unfold onBoard at hon
  simp only [Size] at hon
  have hup : lineMove fuel b row col (-1) 0 = .ok (quietRun row col (-1) 0 row.toNat) :=
    lineMove_lone b row col (-1) 0 fuel row.toNat rook ho (by omega) hlone (by decide)
      (fun i h1 hik => by unfold onBoard; simp only [Size]; omega)
      (by unfold onBoard; simp only [Size]; push_cast; omega)
  have hdown : lineMove fuel b row col 1 0 = .ok (quietRun row col 1 0 (7 - row).toNat) :=
    lineMove_lone b row col 1 0 fuel (7 - row).toNat rook ho (by omega) hlone (by decide)
      (fun i h1 hik => by unfold onBoard; simp only [Size]; omega)
      (by unfold onBoard; simp only [Size]; push_cast; omega)
  have hleft : lineMove fuel b row col 0 (-1) = .ok (quietRun row col 0 (-1) col.toNat) :=
    lineMove_lone b row col 0 (-1) fuel col.toNat rook ho (by omega) hlone (by decide)
      (fun i h1 hik => by unfold onBoard; simp only [Size]; omega)
      (by unfold onBoard; simp only [Size]; push_cast; omega)
  have hright : lineMove fuel b row col 0 1 = .ok (quietRun row col 0 1 (7 - col).toNat) :=
    lineMove_lone b row col 0 1 fuel (7 - col).toNat rook ho (by omega) hlone (by decide)
      (fun i h1 hik => by unfold onBoard; simp only [Size]; omega)
      (by unfold onBoard; simp only [Size]; push_cast; omega)
  have hres : RookMoves fuel b row col
      = .ok (quietRun row col (-1) 0 row.toNat ++ quietRun row col 1 0 (7 - row).toNat
            ++ quietRun row col 0 (-1) col.toNat ++ quietRun row col 0 1 (7 - col).toNat) := by
    unfold RookMoves
    rw [hup, hdown, hleft, hright]
    simp [bind, Except.bind, pure, Except.pure]
  refine ⟨_, hres, ?_, ?_, rfl, ?_⟩
  · simp only [List.length_append, length_quietRun]
    omega
  · intro m hm
    simp only [List.mem_append] at hm
    rcases hm with ((hm | hm) | hm) | hm <;>
    · obtain ⟨i, _, _, rfl⟩ := (mem_quietRun _ _ _ _ _ m).1 hm
      rfl
  · intro hr hc
    subst hr hc
    refine ⟨by rw [hup]; rfl, by rw [hleft]; rfl, ?_⟩
    simp [quietRun]

/-- Witness of C4: a lone white rook at the corner `(0, 0)`. -/
theorem RookMoves_lone_rook_witness :
    ∃ ms, RookMoves 8 (emptyBoard.put 0 0 ⟨Rank.Rook, Color.WhiteTeam, false⟩) 0 0 = .ok ms ∧
      ms.length = 14 ∧ (∀ m ∈ ms, m.Capture = false) ∧
      ms = quietRun 0 0 (-1) 0 (0 : Int).toNat ++ quietRun 0 0 1 0 (7 - 0 : Int).toNat
            ++ quietRun 0 0 0 (-1) (0 : Int).toNat ++ quietRun 0 0 0 1 (7 - 0 : Int).toNat ∧
      ((0 : Int) = 0 → (0 : Int) = 0 →
        lineMove 8 (emptyBoard.put 0 0 ⟨Rank.Rook, Color.WhiteTeam, false⟩) 0 0 (-1) 0
          = .ok [] ∧
        lineMove 8 (emptyBoard.put 0 0 ⟨Rank.Rook, Color.WhiteTeam, false⟩) 0 0 0 (-1)
          = .ok [] ∧
        ms = quietRun 0 0 1 0 7 ++ quietRun 0 0 0 1 7) :=
  RookMoves_lone_rook (emptyBoard.put 0 0 ⟨Rank.Rook, Color.WhiteTeam, false⟩) 0 0 8
    ⟨Rank.Rook, Color.WhiteTeam, false⟩ (by decide) (by decide) (by decide) rfl
    (fun r c p hp hne => index_put_lone 0 0 _ r c p hp (by simpa using hne))

/-! ## C5: the knight -/

/-- C5. For every board and every on-board square `(row, col)` holding a knight,
`KnightMoves` returns a list whose members are exactly the moves from
`(row, col)` to the squares `(row + dr, col + dc)`, `(dr, dc)` one of the eight
knight offsets, that are on-board and not occupied by a piece of the knight's
colour, with `Capture = true` iff the square holds a piece of the other colour
and `EnPassant = false`; no destination is listed twice.  A knight at `(0, 0)`
on an otherwise empty board yields exactly the two moves to `(2, 1)` and
`(1, 2)`. -/
theorem KnightMoves_spec (b : Board) (row col : Int) (knight : Piece)
    (ho : b.index row col = .ok knight) (_hk : knight.Rank = Rank.Knight) :
    ∃ ms, KnightMoves b row col = .ok ms ∧
      (∀ m, m ∈ ms ↔ ∃ d ∈ knightOffsets,
        onBoard (row + d.1) (col + d.2) ∧
        isOwnAt b knight.Color (row + d.1) (col + d.2) = false ∧
        m = ⟨⟨row, col⟩, ⟨row + d.1, col + d.2⟩,
              isEnemyAt b knight.Color (row + d.1) (col + d.2), false⟩) ∧
      (ms.map (fun m => m.To)).Nodup ∧
      (row = 0 → col = 0 →
        (∀ (r c : Int) (p : Piece), b.index r c = .ok p → (r, c) ≠ (0, 0) →
          p.Rank = Rank.Empty) →
        ms = [⟨⟨0, 0⟩, ⟨2, 1⟩, false, false⟩, ⟨⟨0, 0⟩, ⟨1, 2⟩, false, false⟩]) := by
  refine ⟨_, KnightMoves_eq b row col knight ho, ?_, ?_, ?_⟩
  · intro m
    rw [mem_offsetMoves]
    constructor
    · rintro ⟨d, hd, hm⟩
      exact ⟨d, hd, (mem_offsetMove b _ row col d.1 d.2 m).1 hm⟩
    · rintro ⟨d, hd, hm⟩
      exact ⟨d, hd, (mem_offsetMove b _ row col d.1 d.2 m).2 hm⟩
  · exact offsetMoves_to_nodup b _ row col knightOffsets (by decide)
  · intro hr hc hlone
    subst hr hc
    simp only [knightOffsets, offsetMoves]
    rw [offsetMove_of_not_onBoard b _ 0 0 (-2) (-1) (by decide),
      offsetMove_of_not_onBoard b _ 0 0 (-2) 1 (by decide),
      offsetMove_of_not_onBoard b _ 0 0 2 (-1) (by decide),
      offsetMove_of_empty b _ 0 0 2 1
        (isEmptyAt_of_lone b 0 0 _ _ hlone (by decide) (by decide)),
      offsetMove_of_not_onBoard b _ 0 0 (-1) (-2) (by decide),
      offsetMove_of_not_onBoard b _ 0 0 1 (-2) (by decide),
      offsetMove_of_not_onBoard b _ 0 0 (-1) 2 (by decide),
      offsetMove_of_empty b _ 0 0 1 2
        (isEmptyAt_of_lone b 0 0 _ _ hlone (by decide) (by decide))]
    rfl

/-- Witness of C5: the knight of `knightBoard` at `(3, 3)`, with a friendly pawn on one
of its eight targets and an enemy pawn on another, and the lone knight at the
corner `(0, 0)`. -/
theorem KnightMoves_spec_witness :
    (∃ ms, KnightMoves knightBoard 3 3 = .ok ms ∧
      (∀ m, m ∈ ms ↔ ∃ d ∈ knightOffsets,
        onBoard (3 + d.1) (3 + d.2) ∧
        isOwnAt knightBoard (⟨Rank.Knight, Color.WhiteTeam, false⟩ : Piece).Color
          (3 + d.1) (3 + d.2) = false ∧
        m = ⟨⟨3, 3⟩, ⟨3 + d.1, 3 + d.2⟩,
              isEnemyAt knightBoard (⟨Rank.Knight, Color.WhiteTeam, false⟩ : Piece).Color
                (3 + d.1) (3 + d.2), false⟩) ∧
      (ms.map (fun m => m.To)).Nodup ∧
      ((3 : Int) = 0 → (3 : Int) = 0 →
        (∀ (r c : Int) (p : Piece), knightBoard.index r c = .ok p → (r, c) ≠ (0, 0) →
          p.Rank = Rank.Empty) →
        ms = [⟨⟨0, 0⟩, ⟨2, 1⟩, false, false⟩, ⟨⟨0, 0⟩, ⟨1, 2⟩, false, false⟩])) ∧
    KnightMoves (emptyBoard.put 0 0 ⟨Rank.Knight, Color.BlackTeam, false⟩) 0 0
      = .ok [⟨⟨0, 0⟩, ⟨2, 1⟩, false, false⟩, ⟨⟨0, 0⟩, ⟨1, 2⟩, false, false⟩] :=
  ⟨KnightMoves_spec knightBoard 3 3 ⟨Rank.Knight, Color.WhiteTeam, false⟩ (by decide) rfl,
   by
    obtain ⟨ms, h, _, _, hc⟩ :=
      KnightMoves_spec (emptyBoard.put 0 0 ⟨Rank.Knight, Color.BlackTeam, false⟩) 0 0
        ⟨Rank.Knight, Color.BlackTeam, false⟩ (by decide) rfl
    rw [h, hc rfl rfl
      (fun r c p hp hne => index_put_lone 0 0 _ r c p hp (by simpa using hne))]⟩

/-! ## C6: a lone king away from the edge -/

/-- C6. For every square `(row, col)` with `1 ≤ row ≤ 6` and `1 ≤ col ≤ 6`, on a
board whose only non-`Empty` square is a king at `(row, col)`, `KingMoves`
returns exactly 8 moves, one to each of the eight neighbouring squares (in the
order up, down, left, right, up-left, up-right, down-left, down-right), all
with `Capture = false`. -/
theorem KingMoves_lone_king (b : Board) (row col : Int) (king : Piece)
    (hr1 : 1 ≤ row) (hr6 : row ≤ 6) (hc1 : 1 ≤ col) (hc6 : col ≤ 6)
    (ho : b.index row col = .ok king) (_hk : king.Rank = Rank.King)
    (hlone : ∀ (r c : Int) (p : Piece), b.index r c = .ok p → (r, c) ≠ (row, col) →
      p.Rank = Rank.Empty) :
    KingMoves b row col
      = .ok [⟨⟨row, col⟩, ⟨row - 1, col⟩, false, false⟩,
             ⟨⟨row, col⟩, ⟨row + 1, col⟩, false, false⟩,
             ⟨⟨row, col⟩, ⟨row, col - 1⟩, false, false⟩,
             ⟨⟨row, col⟩, ⟨row, col + 1⟩, false, false⟩,
             ⟨⟨row, col⟩, ⟨row - 1, col - 1⟩, false, false⟩,
             ⟨⟨row, col⟩, ⟨row - 1, col + 1⟩, false, false⟩,
             ⟨⟨row, col⟩, ⟨row + 1, col - 1⟩, false, false⟩,
             ⟨⟨row, col⟩, ⟨row + 1, col + 1⟩, false, false⟩] := by
  have hempty : ∀ dr dc : Int, -1 ≤ dr → dr ≤ 1 → -1 ≤ dc → dc ≤ 1 → (dr, dc) ≠ (0, 0) →
      isEmptyAt b (row + dr) (col + dc) = true := by
    intro dr dc h1 h2 h3 h4 hne
    apply isEmptyAt_of_lone b row col _ _ hlone
    · unfold onBoard; simp only [Size]; omega
    · intro heq
      have e1 := congrArg Prod.fst heq
      have e2 := congrArg Prod.snd heq
      simp only at e1 e2
      exact hne (Prod.ext (by simp only; omega) (by simp only; omega))
  rw [KingMoves_eq b row col king ho]
  simp only [kingOffsets, offsetMoves]
  rw [offsetMove_of_empty b _ row col (-1) 0 (hempty _ _ (by omega) (by omega) (by omega) (by omega) (by decide)),
    offsetMove_of_empty b _ row col 1 0 (hempty _ _ (by omega) (by omega) (by omega) (by omega) (by decide)),
    offsetMove_of_empty b _ row col 0 (-1) (hempty _ _ (by omega) (by omega) (by omega) (by omega) (by decide)),
    offsetMove_of_empty b _ row col 0 1 (hempty _ _ (by omega) (by omega) (by omega) (by omega) (by decide)),
    offsetMove_of_empty b _ row col (-1) (-1) (hempty _ _ (by omega) (by omega) (by omega) (by omega) (by decide)),
    offsetMove_of_empty b _ row col (-1) 1 (hempty _ _ (by omega) (by omega) (by omega) (by omega) (by decide)),
    offsetMove_of_empty b _ row col 1 (-1) (hempty _ _ (by omega) (by omega) (by omega) (by omega) (by decide)),
    offsetMove_of_empty b _ row col 1 1 (hempty _ _ (by omega) (by omega) (by omega) (by omega) (by decide))]
  simp only [List.singleton_append, List.cons_append, List.nil_append, add_zero,
    ← sub_eq_add_neg]

/-- Witness of C6: a lone white king at `(3, 3)`, the case of the specification. -/
theorem KingMoves_lone_king_witness :
    KingMoves (emptyBoard.put 3 3 ⟨Rank.King, Color.WhiteTeam, false⟩) 3 3
      = .ok [⟨⟨3, 3⟩, ⟨3 - 1, 3⟩, false, false⟩,
             ⟨⟨3, 3⟩, ⟨3 + 1, 3⟩, false, false⟩,
             ⟨⟨3, 3⟩, ⟨3, 3 - 1⟩, false, false⟩,
             ⟨⟨3, 3⟩, ⟨3, 3 + 1⟩, false, false⟩,
             ⟨⟨3, 3⟩, ⟨3 - 1, 3 - 1⟩, false, false⟩,
             ⟨⟨3, 3⟩, ⟨3 - 1, 3 + 1⟩, false, false⟩,
             ⟨⟨3, 3⟩, ⟨3 + 1, 3 - 1⟩, false, false⟩,
             ⟨⟨3, 3⟩, ⟨3 + 1, 3 + 1⟩, false, false⟩] :=
  KingMoves_lone_king (emptyBoard.put 3 3 ⟨Rank.King, Color.WhiteTeam, false⟩) 3 3
    ⟨Rank.King, Color.WhiteTeam, false⟩ (by decide) (by decide) (by decide) (by decide)
    (by decide) rfl
    (fun r c p hp hne => index_put_lone 3 3 _ r c p hp (by simpa using hne))

/-! ## C7: the queen is a rook followed by a bishop -/

/-- C7. For every board and every on-board square `(row, col)`, with an iteration
budget of at least 8, the eight rays return lists, `RookMoves` returns the
four orthogonal rays in the order up, down, left, right, `BishopMoves` the
four diagonal rays in the order up-left, up-right, down-left, down-right, and
`QueenMoves` returns, as an ordered list, the result of `RookMoves` followed
by the result of `BishopMoves`. -/
theorem QueenMoves_eq_rook_append_bishop (b : Board) (row col : Int) (fuel : Nat)
    (hon : onBoard row col) (hf : 8 ≤ fuel) :
    ∃ up down left right upLeft upRight downLeft downRight : List ValidMove,
      lineMove fuel b row col (-1) 0 = .ok up ∧
      lineMove fuel b row col 1 0 = .ok down ∧
      lineMove fuel b row col 0 (-1) = .ok left ∧
      lineMove fuel b row col 0 1 = .ok right ∧
      lineMove fuel b row col (-1) (-1) = .ok upLeft ∧
      lineMove fuel b row col (-1) 1 = .ok upRight ∧
      lineMove fuel b row col 1 (-1) = .ok downLeft ∧
      lineMove fuel b row col 1 1 = .ok downRight ∧
      RookMoves fuel b row col = .ok (up ++ down ++ left ++ right) ∧
      BishopMoves fuel b row col = .ok (upLeft ++ upRight ++ downLeft ++ downRight) ∧
      QueenMoves fuel b row col
        = .ok ((up ++ down ++ left ++ right)
            ++ (upLeft ++ upRight ++ downLeft ++ downRight)) := by
  obtain ⟨up, h1⟩ := lineMove_ok b row col (-1) 0 fuel hon (by decide) hf
  obtain ⟨down, h2⟩ := lineMove_ok b row col 1 0 fuel hon (by decide) hf
  obtain ⟨left, h3⟩ := lineMove_ok b row col 0 (-1) fuel hon (by decide) hf
  obtain ⟨right, h4⟩ := lineMove_ok b row col 0 1 fuel hon (by decide) hf
  obtain ⟨upLeft, h5⟩ := lineMove_ok b row col (-1) (-1) fuel hon (by decide) hf
  obtain ⟨upRight, h6⟩ := lineMove_ok b row col (-1) 1 fuel hon (by decide) hf
  obtain ⟨downLeft, h7⟩ := lineMove_ok b row col 1 (-1) fuel hon (by decide) hf
  obtain ⟨downRight, h8⟩ := lineMove_ok b row col 1 1 fuel hon (by decide) hf
  refine ⟨up, down, left, right, upLeft, upRight, downLeft, downRight,
    h1, h2, h3, h4, h5, h6, h7, h8, ?_, ?_, ?_⟩
  · unfold RookMoves
    rw [h1, h2, h3, h4]
    simp [bind, Except.bind, pure, Except.pure]
  · unfold BishopMoves
    rw [h5, h6, h7, h8]
    simp [bind, Except.bind, pure, Except.pure]
  · unfold QueenMoves
    rw [h1, h2, h3, h4, h5, h6, h7, h8]
    simp [bind, Except.bind, pure, Except.pure]

/-- Witness of C7: the queen's moves from `(0, 0)` of `sampleBoard`. -/
theorem QueenMoves_eq_rook_append_bishop_witness :
    onBoard 0 0 ∧
    ∃ up down left right upLeft upRight downLeft downRight : List ValidMove,
      lineMove 8 sampleBoard 0 0 (-1) 0 = .ok up ∧
      lineMove 8 sampleBoard 0 0 1 0 = .ok down ∧
      lineMove 8 sampleBoard 0 0 0 (-1) = .ok left ∧
      lineMove 8 sampleBoard 0 0 0 1 = .ok right ∧
      lineMove 8 sampleBoard 0 0 (-1) (-1) = .ok upLeft ∧
      lineMove 8 sampleBoard 0 0 (-1) 1 = .ok upRight ∧
      lineMove 8 sampleBoard 0 0 1 (-1) = .ok downLeft ∧
      lineMove 8 sampleBoard 0 0 1 1 = .ok downRight ∧
      RookMoves 8 sampleBoard 0 0 = .ok (up ++ down ++ left ++ right) ∧
      BishopMoves 8 sampleBoard 0 0 = .ok (upLeft ++ upRight ++ downLeft ++ downRight) ∧
      QueenMoves 8 sampleBoard 0 0
        = .ok ((up ++ down ++ left ++ right)
            ++ (upLeft ++ upRight ++ downLeft ++ downRight)) :=
  ⟨by decide, QueenMoves_eq_rook_append_bishop sampleBoard 0 0 8 (by decide) (by decide)⟩

/-! ## C8: a white pawn on its home rank -/

/-- C8. For every column `col` in `[0, 8)`, on a board whose only non-`Empty`
square is a white pawn at `(1, col)` and on which no square is flagged
`EnPassantable`, `PawnMoves` returns exactly two moves, in this order: the
push to `(2, col)` (with `Capture = false`) and the double push to `(3, col)`
(which the code builds with `Capture = true`); neither is flagged
`EnPassant`. -/
theorem PawnMoves_home_rank (b : Board) (col : Int) (pawn : Piece)
    (hc0 : 0 ≤ col) (hc8 : col < 8)
    (ho : b.index 1 col = .ok pawn) (_hp : pawn.Rank = Rank.Pawn)
    (hw : pawn.Color = Color.WhiteTeam)
    (hlone : ∀ (r c : Int) (p : Piece), b.index r c = .ok p → (r, c) ≠ (1, col) →
      p.Rank = Rank.Empty)
    (hflags : ∀ (r c : Int) (p : Piece), b.index r c = .ok p → p.EnPassantable = false) :
    PawnMoves b 1 col
      = .ok [⟨⟨1, col⟩, ⟨2, col⟩, false, false⟩, ⟨⟨1, col⟩, ⟨3, col⟩, true, false⟩] := by
  have ne1 : ∀ c : Int, ((2 : Int), c) ≠ (1, col) := fun c h => by
    have := congrArg Prod.fst h
    simp at this
  have ne2 : ((3 : Int), col) ≠ (1, col) := fun h => by
    have := congrArg Prod.fst h
    simp at this
  have e2 : isEmptyAt b 2 col = true :=
    isEmptyAt_of_lone b 1 col 2 col hlone (by unfold onBoard; simp only [Size]; omega) (ne1 col)
  have e3 : isEmptyAt b 3 col = true :=
    isEmptyAt_of_lone b 1 col 3 col hlone (by unfold onBoard; simp only [Size]; omega) ne2
  rw [PawnMoves_white b 1 col pawn ho hw]
  simp only [show (1 : Int) + 1 = 2 from rfl, show (1 : Int) + 2 = 3 from rfl, e2, e3,
    isEnemyAt_false_of_lone b _ 1 col 2 _ hlone (ne1 _),
    flagAt_false_of_unflagged b _ _ hflags, Bool.true_or, Bool.and_false, Bool.false_and,
    decide_True, Bool.and_self, emitIf_true, emitIf_false, List.append_nil,
    List.singleton_append]

/-- Witness of C8: a lone white pawn at `(1, 4)`, the case of the specification. -/
theorem PawnMoves_home_rank_witness :
    PawnMoves (emptyBoard.put 1 4 ⟨Rank.Pawn, Color.WhiteTeam, false⟩) 1 4
      = .ok [⟨⟨1, 4⟩, ⟨2, 4⟩, false, false⟩, ⟨⟨1, 4⟩, ⟨3, 4⟩, true, false⟩] :=
  PawnMoves_home_rank (emptyBoard.put 1 4 ⟨Rank.Pawn, Color.WhiteTeam, false⟩) 4
    ⟨Rank.Pawn, Color.WhiteTeam, false⟩ (by decide) (by decide) (by decide) rfl rfl
    (fun r c p hp hne => index_put_lone 1 4 _ r c p hp (by simpa using hne))
    (fun r c p hp => by
      have hon := onBoard_of_index _ r c p hp
      unfold Board.index at hp
      unfold onBoard at hon
      rw [dif_pos hon] at hp
      injection hp with hp
      rw [← hp]
      unfold Board.put emptyBoard
      simp only
      split <;> rfl)

/-! ## C9: a white pawn with two captures -/

/-- C9. For every board that holds a white pawn at `(4, 4)`, pieces of another
colour at `(5, 3)` and `(5, 5)` and an `Empty` square at `(5, 4)`, whatever
the other squares and the `EnPassantable` flags are, `PawnMoves b 4 4` returns
exactly three moves: the push to `(5, 4)` with `Capture = false`, the move to
`(5, 3)` with `Capture = true` and the move to `(5, 5)` with `Capture = true`,
none of them flagged `EnPassant`. -/
theorem PawnMoves_two_captures (b : Board) (pawn : Piece)
    (ho : b.index 4 4 = .ok pawn) (_hp : pawn.Rank = Rank.Pawn)
    (hw : pawn.Color = Color.WhiteTeam)
    (hfwd : isEmptyAt b 5 4 = true)
    (hleft : isEnemyAt b Color.WhiteTeam 5 3 = true)
    (hright : isEnemyAt b Color.WhiteTeam 5 5 = true) :
    PawnMoves b 4 4
      = .ok [⟨⟨4, 4⟩, ⟨5, 4⟩, false, false⟩, ⟨⟨4, 4⟩, ⟨5, 3⟩, true, false⟩,
             ⟨⟨4, 4⟩, ⟨5, 5⟩, true, false⟩] := by
  rw [PawnMoves_white b 4 4 pawn ho hw]
  simp only [show (4 : Int) + 1 = 5 from rfl, show (4 : Int) - 1 = 3 from rfl, hfwd, hleft,
    hright, isEnemyAt_not_empty b _ _ _ hleft, isEnemyAt_not_empty b _ _ _ hright,
    show decide ((4 : Int) = 1) = false from rfl,
    Bool.true_or, Bool.and_false, Bool.false_and, emitIf_true, emitIf_false,
    List.append_nil, List.singleton_append, List.cons_append, List.nil_append]

/-- Witness of C9: `captureBoard`, where moreover `(4, 5)` is flagged
`EnPassantable`. -/
theorem PawnMoves_two_captures_witness :
    PawnMoves captureBoard 4 4
      = .ok [⟨⟨4, 4⟩, ⟨5, 4⟩, false, false⟩, ⟨⟨4, 4⟩, ⟨5, 3⟩, true, false⟩,
             ⟨⟨4, 4⟩, ⟨5, 5⟩, true, false⟩] :=
  PawnMoves_two_captures captureBoard ⟨Rank.Pawn, Color.WhiteTeam, false⟩ (by decide) rfl rfl
    (by decide) (by decide) (by decide)

/-! ## C10: en passant of a white pawn -/

/-- C10. For every board holding a white pawn at an on-board square `(row, col)`
and every `d` in `{-1, +1}`: the list returned by `PawnMoves` contains a move
with `EnPassant = true` and destination `(row + 1, col + d)` if and only if
`col + d` is in `[0, 8)`, the neighbouring square `(row, col + d)` is flagged
`EnPassantable`, and `(row + 1, col + d)` is on-board and `Empty`; every move
flagged `EnPassant` has `Capture = false`. -/
theorem PawnMoves_white_enPassant (b : Board) (row col d : Int) (pawn : Piece)
    (ho : b.index row col = .ok pawn) (_hp : pawn.Rank = Rank.Pawn)
    (hw : pawn.Color = Color.WhiteTeam) (hd : d = -1 ∨ d = 1) :
    ∃ ms, PawnMoves b row col = .ok ms ∧
      ((∃ m ∈ ms, m.EnPassant = true ∧ m.To = ⟨row + 1, col + d⟩)
        ↔ (0 ≤ col + d ∧ col + d < 8 ∧ flagAt b row (col + d) = true ∧
            isEmptyAt b (row + 1) (col + d) = true)) ∧
      (∀ m ∈ ms, m.EnPassant = true → m.Capture = false) := by
  refine ⟨_, PawnMoves_white b row col pawn ho hw, ?_, ?_⟩
  · have hon := onBoard_of_index b row col pawn ho
    unfold onBoard at hon
    simp only [Size] at hon
    rcases hd with rfl | rfl
    · constructor
      · rintro ⟨m, hm, hep, hto⟩
        simp only [List.mem_append, mem_emitIf] at hm
        rcases hm with ((((hm | hm) | hm) | hm) | hm) | hm <;> obtain ⟨hc, rfl⟩ := hm
        · cases hep
        · cases hep
        · cases hep
        · cases hep
        · injection hto with _ h2
          omega
        · simp only [Bool.and_eq_true, decide_eq_true_eq] at hc
          refine ⟨by omega, by omega, ?_, ?_⟩
          · simpa [sub_eq_add_neg] using hc.1.2
          · simpa [sub_eq_add_neg] using hc.2
      · rintro ⟨h0, _, hflag, hempty⟩
        refine ⟨⟨⟨row, col⟩, ⟨row + 1, col - 1⟩, false, true⟩, ?_, rfl, ?_⟩
        · refine List.mem_append_right _ ((mem_emitIf _ _ _).2 ⟨?_, rfl⟩)
          simp only [Bool.and_eq_true, decide_eq_true_eq]
          refine ⟨⟨by omega, ?_⟩, ?_⟩
          · simpa [sub_eq_add_neg] using hflag
          · simpa [sub_eq_add_neg] using hempty
        · simp [sub_eq_add_neg]
    · constructor
      · rintro ⟨m, hm, hep, hto⟩
        simp only [List.mem_append, mem_emitIf] at hm
        rcases hm with ((((hm | hm) | hm) | hm) | hm) | hm <;> obtain ⟨hc, rfl⟩ := hm
        · cases hep
        · cases hep
        · cases hep
        · cases hep
        · simp only [Bool.and_eq_true, decide_eq_true_eq, Size] at hc
          exact ⟨by omega, by omega, hc.1.2, hc.2⟩
        · injection hto with _ h2
          omega
      · rintro ⟨_, h8, hflag, hempty⟩
        refine ⟨⟨⟨row, col⟩, ⟨row + 1, col + 1⟩, false, true⟩, ?_, rfl, rfl⟩
        refine List.mem_append_left _ (List.mem_append_right _ ((mem_emitIf _ _ _).2 ⟨?_, rfl⟩))
        simp only [Bool.and_eq_true, decide_eq_true_eq, Size]
        exact ⟨⟨h8, hflag⟩, hempty⟩
  · intro m hm hep
    simp only [List.mem_append, mem_emitIf] at hm
    rcases hm with ((((hm | hm) | hm) | hm) | hm) | hm <;> obtain ⟨_, rfl⟩ := hm <;>
      first
        | rfl
        | cases hep

/-- Witness of C10: on `enPassantBoard` the white pawn at `(4, 4)` has `(4, 5)` flagged
and `(5, 5)` empty, and its moves, the push to `(5, 4)` and the en-passant
move to `(5, 5)`, contain a move to `(5, 5)` flagged `EnPassant`. -/
theorem PawnMoves_white_enPassant_witness :
    PawnMoves enPassantBoard 4 4
      = .ok [⟨⟨4, 4⟩, ⟨5, 4⟩, false, false⟩, ⟨⟨4, 4⟩, ⟨5, 5⟩, false, true⟩] ∧
    ∃ ms, PawnMoves enPassantBoard 4 4 = .ok ms ∧
      ((∃ m ∈ ms, m.EnPassant = true ∧ m.To = ⟨4 + 1, 4 + 1⟩)
        ↔ (0 ≤ (4 : Int) + 1 ∧ (4 : Int) + 1 < 8 ∧ flagAt enPassantBoard 4 (4 + 1) = true ∧
            isEmptyAt enPassantBoard (4 + 1) (4 + 1) = true)) ∧
      (∀ m ∈ ms, m.EnPassant = true → m.Capture = false) :=
  ⟨by decide, PawnMoves_white_enPassant enPassantBoard 4 4 1
    ⟨Rank.Pawn, Color.WhiteTeam, false⟩ (by decide) rfl rfl (Or.inr rfl)⟩

/-! ## C11: destinations are on the board -/

/-- C11, at the failing input. The claim is that every destination returned by
`PossibleMoves` for a piece at an on-board square satisfies `0 ≤ row < 8` and
`0 ≤ col < 8`.  On `edgeBoard` the black pawn at the on-board square `(7, 4)`
has `(7, 5)` flagged `EnPassantable` and the probed square `(6, 5)` empty; the
`else` branch of `PawnMoves` probes `(row - 1, col + 1)` but builds the move
with `To = (row + 1, col + 1)`, so `PossibleMoves` returns an `EnPassant` move
to `(8, 5)`, which is off the board. -/
theorem PossibleMoves_enPassant_off_board :
    onBoard 7 4 ∧
    edgeBoard.index 7 4 = .ok ⟨Rank.Pawn, Color.BlackTeam, false⟩ ∧
    PossibleMoves 8 edgeBoard ⟨Rank.Pawn, Color.BlackTeam, false⟩ 7 4
      = .ok [⟨⟨7, 4⟩, ⟨6, 4⟩, false, false⟩, ⟨⟨7, 4⟩, ⟨8, 5⟩, false, true⟩] ∧
    ¬ onBoard 8 5 := by
  decide

/-! ## C12: the dispatcher -/

/-- C12, counterexample. A pawn is one of the six kinds, yet `PossibleMoves` for a
pawn queried at the off-board coordinate `(8, 0)` aborts: `PawnMoves` reads
`b.Spaces[8][0]`, an index out of range. -/
theorem PossibleMoves_off_board_counterexample :
    (⟨Rank.Pawn, Color.WhiteTeam, false⟩ : Piece).Rank = Rank.Pawn ∧
    ¬ onBoard 8 0 ∧
    PossibleMoves 8 emptyBoard ⟨Rank.Pawn, Color.WhiteTeam, false⟩ 8 0
      = .error .indexOutOfRange := by
  decide

/-- C12, amended. For every board `b`, piece `p` and coordinate `(row, col)`: when
`p.Rank` is `King`, `Queen`, `Bishop`, `Knight`, `Rook` or `Pawn`,
`PossibleMoves` returns exactly the result of `KingMoves`, `QueenMoves`,
`BishopMoves`, `KnightMoves`, `RookMoves` or `PawnMoves` on `(b, row, col)`;
`PossibleMoves` reaches its own panic if and only if `p.Rank` is none of these
six values, which includes `Empty`; and for an on-board `(row, col)` (with an
iteration budget of at least 8) it aborts at all if and only if `p.Rank` is
none of these six values. -/
theorem PossibleMoves_dispatch (fuel : Nat) (b : Board) (p : Piece) (row col : Int) :
    (p.Rank = Rank.King → PossibleMoves fuel b p row col = KingMoves b row col) ∧
    (p.Rank = Rank.Queen → PossibleMoves fuel b p row col = QueenMoves fuel b row col) ∧
    (p.Rank = Rank.Bishop → PossibleMoves fuel b p row col = BishopMoves fuel b row col) ∧
    (p.Rank = Rank.Knight → PossibleMoves fuel b p row col = KnightMoves b row col) ∧
    (p.Rank = Rank.Rook → PossibleMoves fuel b p row col = RookMoves fuel b row col) ∧
    (p.Rank = Rank.Pawn → PossibleMoves fuel b p row col = PawnMoves b row col) ∧
    (PossibleMoves fuel b p row col = .error .invalidPiece
      ↔ (p.Rank ≠ Rank.King ∧ p.Rank ≠ Rank.Queen ∧ p.Rank ≠ Rank.Bishop ∧
          p.Rank ≠ Rank.Knight ∧ p.Rank ≠ Rank.Rook ∧ p.Rank ≠ Rank.Pawn)) ∧
    (p.Rank = Rank.Empty → PossibleMoves fuel b p row col = .error .invalidPiece) ∧
    (onBoard row col → 8 ≤ fuel →
      ((∃ e, PossibleMoves fuel b p row col = .error e)
        ↔ (p.Rank ≠ Rank.King ∧ p.Rank ≠ Rank.Queen ∧ p.Rank ≠ Rank.Bishop ∧
            p.Rank ≠ Rank.Knight ∧ p.Rank ≠ Rank.Rook ∧ p.Rank ≠ Rank.Pawn))) := by
  refine ⟨fun h => by unfold PossibleMoves; rw [h], fun h => by unfold PossibleMoves; rw [h],
    fun h => by unfold PossibleMoves; rw [h], fun h => by unfold PossibleMoves; rw [h],
    fun h => by unfold PossibleMoves; rw [h], fun h => by unfold PossibleMoves; rw [h],
    ?_, fun h => by unfold PossibleMoves; rw [h], ?_⟩
  · unfold PossibleMoves
    cases hr : p.Rank
    · simp
    · simpa using PawnMoves_ne_invalid b row col
    · simpa using KnightMoves_ne_invalid b row col
    · simpa using BishopMoves_ne_invalid b row col fuel
    · simpa using RookMoves_ne_invalid b row col fuel
    · simpa using QueenMoves_ne_invalid b row col fuel
    · simpa using KingMoves_ne_invalid b row col
  · intro hon hf
    unfold PossibleMoves
    cases hr : p.Rank
    · simp
    · obtain ⟨ms, h⟩ := PawnMoves_ok b row col hon
      simp [h]
    · obtain ⟨ms, h⟩ := KnightMoves_ok b row col hon
      simp [h]
    · obtain ⟨ms, h⟩ := BishopMoves_ok b row col fuel hon hf
      simp [h]
    · obtain ⟨ms, h⟩ := RookMoves_ok b row col fuel hon hf
      simp [h]
    · obtain ⟨ms, h⟩ := QueenMoves_ok b row col fuel hon hf
      simp [h]
    · obtain ⟨ms, h⟩ := KingMoves_ok b row col hon
      simp [h]

/-- Witness of C12 as amended: a rook queried at `(0, 0)` of `sampleBoard` is
dispatched to `RookMoves` and does not abort; an `Empty` cell queried there
reaches the panic. -/
theorem PossibleMoves_dispatch_witness :
    PossibleMoves 8 sampleBoard ⟨Rank.Rook, Color.WhiteTeam, false⟩ 0 0
      = RookMoves 8 sampleBoard 0 0 ∧
    ¬ (∃ e, PossibleMoves 8 sampleBoard ⟨Rank.Rook, Color.WhiteTeam, false⟩ 0 0 = .error e) ∧
    PossibleMoves 8 sampleBoard emptyPiece 0 0 = .error .invalidPiece :=
  ⟨(PossibleMoves_dispatch 8 sampleBoard ⟨Rank.Rook, Color.WhiteTeam, false⟩ 0 0).2.2.2.2.1 rfl,
   fun h => absurd
    (((PossibleMoves_dispatch 8 sampleBoard ⟨Rank.Rook, Color.WhiteTeam, false⟩ 0
      0).2.2.2.2.2.2.2.2 (by decide) (by decide)).1 h).2.2.2.2.1 (by decide),
   (PossibleMoves_dispatch 8 sampleBoard emptyPiece 0 0).2.2.2.2.2.2.2.1 rfl⟩

/-! ## C13: no failure for an on-board query -/

/-- C13. For every board, every on-board query coordinate `(row, col)` and every
piece whose `Rank` is one of the six kinds, with an iteration budget of at
least 8, `PossibleMoves` completes and returns a move list: no out-of-range
board access is made and the panic branch is not reached.  The probe itself
never fails, whatever the target coordinate: an off-board target, a blocked
square or a missing flag is reported through the booleans and only leaves a
move out. -/
theorem PossibleMoves_safe (fuel : Nat) (b : Board) (p : Piece) (row col : Int)
    (hon : onBoard row col) (hf : 8 ≤ fuel)
    (hp : p.Rank = Rank.King ∨ p.Rank = Rank.Queen ∨ p.Rank = Rank.Bishop ∨
      p.Rank = Rank.Knight ∨ p.Rank = Rank.Rook ∨ p.Rank = Rank.Pawn) :
    (∃ ms, PossibleMoves fuel b p row col = .ok ms) ∧
    (∀ (c : Color) (r k : Int), ∃ valid capture, tryMove b c r k = .ok (valid, capture)) ∧
    (∀ (c : Color) (r k : Int), ¬ onBoard r k → tryMove b c r k = .ok (false, false)) := by
  refine ⟨?_, fun c r k => ⟨_, _, tryMove_eq b c r k⟩, fun c r k h => ?_⟩
  · unfold PossibleMoves
    rcases hp with h | h | h | h | h | h <;> rw [h]
    · exact KingMoves_ok b row col hon
    · exact QueenMoves_ok b row col fuel hon hf
    · exact BishopMoves_ok b row col fuel hon hf
    · exact KnightMoves_ok b row col hon
    · exact RookMoves_ok b row col fuel hon hf
    · exact PawnMoves_ok b row col hon
  · rw [tryMove_eq, isEmptyAt_false_of_not_onBoard b r k h,
      isEnemyAt_false_of_not_onBoard b c r k h]
    rfl

/-- Witness of C13: the queen's dispatch at `(0, 0)` of `sampleBoard`. -/
theorem PossibleMoves_safe_witness :
    onBoard 0 0 ∧
    (∃ ms, PossibleMoves 8 sampleBoard ⟨Rank.Queen, Color.WhiteTeam, false⟩ 0 0 = .ok ms) ∧
    (∀ (c : Color) (r k : Int), ∃ valid capture,
      tryMove sampleBoard c r k = .ok (valid, capture)) ∧
    (∀ (c : Color) (r k : Int), ¬ onBoard r k → tryMove sampleBoard c r k = .ok (false, false)) :=
  ⟨by decide,
   PossibleMoves_safe 8 sampleBoard ⟨Rank.Queen, Color.WhiteTeam, false⟩ 0 0 (by decide)
    (by decide) (Or.inr (Or.inl rfl))⟩

/-! ## C14: the single push onto an occupied square -/

/-- C14. For every board holding a pawn at `(row, col)`: when the pawn is white, the
push to `(row + 1, col)` with `Capture = false` is among the moves of
`PawnMoves` exactly when the probe of `(row + 1, col)` reports `valid`,
whatever its capture flag, and so in particular when `row + 1 < 8` and that
square holds a piece of another colour; when the pawn is not white, the same
holds with `(row - 1, col)` and `row - 1 ≥ 0`. -/
theorem PawnMoves_push_onto_enemy (b : Board) (row col : Int) (pawn : Piece)
    (ho : b.index row col = .ok pawn) (_hp : pawn.Rank = Rank.Pawn) :
    ∃ ms, PawnMoves b row col = .ok ms ∧
      (pawn.Color = Color.WhiteTeam →
        ((⟨⟨row, col⟩, ⟨row + 1, col⟩, false, false⟩ ∈ ms
            ↔ ∃ capture, tryMove b pawn.Color (row + 1) col = .ok (true, capture)) ∧
         (row + 1 < 8 → isEnemyAt b pawn.Color (row + 1) col = true →
            ⟨⟨row, col⟩, ⟨row + 1, col⟩, false, false⟩ ∈ ms))) ∧
      (pawn.Color ≠ Color.WhiteTeam →
        ((⟨⟨row, col⟩, ⟨row - 1, col⟩, false, false⟩ ∈ ms
            ↔ ∃ capture, tryMove b pawn.Color (row - 1) col = .ok (true, capture)) ∧
         (row - 1 ≥ 0 → isEnemyAt b pawn.Color (row - 1) col = true →
            ⟨⟨row, col⟩, ⟨row - 1, col⟩, false, false⟩ ∈ ms))) := by
  by_cases hw : pawn.Color = Color.WhiteTeam
  · obtain ⟨ms, hms, hmem⟩ := mem_PawnMoves_white b row col pawn ho hw
    have hiff : (⟨⟨row, col⟩, ⟨row + 1, col⟩, false, false⟩ : ValidMove) ∈ ms
        ↔ (isEmptyAt b (row + 1) col || isEnemyAt b Color.WhiteTeam (row + 1) col) = true := by
      rw [hmem]
      simp
    refine ⟨ms, hms, fun _ => ⟨?_, ?_⟩, fun h => absurd hw h⟩
    · rw [hiff, tryMove_valid_iff, hw]
    · intro _ hen
      rw [hw] at hen
      rw [hiff, hen, Bool.or_true]
  · obtain ⟨ms, hms, hmem⟩ := mem_PawnMoves_black b row col pawn ho hw
    have hiff : (⟨⟨row, col⟩, ⟨row - 1, col⟩, false, false⟩ : ValidMove) ∈ ms
        ↔ (isEmptyAt b (row - 1) col || isEnemyAt b pawn.Color (row - 1) col) = true := by
      rw [hmem]
      simp
    refine ⟨ms, hms, fun h => absurd h hw, fun _ => ⟨?_, ?_⟩⟩
    · rw [hiff, tryMove_valid_iff]
    · intro _ hen
      rw [hiff, hen, Bool.or_true]

/-- Witness of C14: on `pushBoard` the white pawn at `(4, 4)` faces a black pawn at
`(5, 4)` and its only move is the push onto that pawn, with `Capture = false`. -/
theorem PawnMoves_push_onto_enemy_witness :
    PawnMoves pushBoard 4 4 = .ok [⟨⟨4, 4⟩, ⟨5, 4⟩, false, false⟩] ∧
    ∃ ms, PawnMoves pushBoard 4 4 = .ok ms ∧
      ((⟨Rank.Pawn, Color.WhiteTeam, false⟩ : Piece).Color = Color.WhiteTeam →
        ((⟨⟨4, 4⟩, ⟨4 + 1, 4⟩, false, false⟩ ∈ ms
            ↔ ∃ capture, tryMove pushBoard (⟨Rank.Pawn, Color.WhiteTeam, false⟩ : Piece).Color
                (4 + 1) 4 = .ok (true, capture)) ∧
         ((4 : Int) + 1 < 8 →
            isEnemyAt pushBoard (⟨Rank.Pawn, Color.WhiteTeam, false⟩ : Piece).Color (4 + 1) 4
              = true →
            ⟨⟨4, 4⟩, ⟨4 + 1, 4⟩, false, false⟩ ∈ ms))) ∧
      ((⟨Rank.Pawn, Color.WhiteTeam, false⟩ : Piece).Color ≠ Color.WhiteTeam →
        ((⟨⟨4, 4⟩, ⟨4 - 1, 4⟩, false, false⟩ ∈ ms
            ↔ ∃ capture, tryMove pushBoard (⟨Rank.Pawn, Color.WhiteTeam, false⟩ : Piece).Color
                (4 - 1) 4 = .ok (true, capture)) ∧
         ((4 : Int) - 1 ≥ 0 →
            isEnemyAt pushBoard (⟨Rank.Pawn, Color.WhiteTeam, false⟩ : Piece).Color (4 - 1) 4
              = true →
            ⟨⟨4, 4⟩, ⟨4 - 1, 4⟩, false, false⟩ ∈ ms))) :=
  ⟨by decide,
   PawnMoves_push_onto_enemy pushBoard 4 4 ⟨Rank.Pawn, Color.WhiteTeam, false⟩ (by decide) rfl⟩

/-! ## C15: the double push -/

/-- C15. For every board holding a pawn at `(row, col)`: when the pawn is white, the
moves of `PawnMoves` contain a move to `(row + 2, col)` if and only if
`row = 1` and `(row + 2, col)` is on-board and `Empty`, and every such move
has `Capture = true` and `EnPassant = false`; when the pawn is not white, the
same holds with `(row - 2, col)` and `row = 6`.  In particular a pawn off its
home rank gets no double push. -/
theorem PawnMoves_double_push (b : Board) (row col : Int) (pawn : Piece)
    (ho : b.index row col = .ok pawn) (_hp : pawn.Rank = Rank.Pawn) :
    ∃ ms, PawnMoves b row col = .ok ms ∧
      (pawn.Color = Color.WhiteTeam →
        ((∃ m ∈ ms, m.To = ⟨row + 2, col⟩)
            ↔ (row = 1 ∧ isEmptyAt b (row + 2) col = true)) ∧
        (∀ m ∈ ms, m.To = ⟨row + 2, col⟩ →
            m = ⟨⟨row, col⟩, ⟨row + 2, col⟩, true, false⟩)) ∧
      (pawn.Color ≠ Color.WhiteTeam →
        ((∃ m ∈ ms, m.To = ⟨row - 2, col⟩)
            ↔ (row = 6 ∧ isEmptyAt b (row - 2) col = true)) ∧
        (∀ m ∈ ms, m.To = ⟨row - 2, col⟩ →
            m = ⟨⟨row, col⟩, ⟨row - 2, col⟩, true, false⟩)) := by
  by_cases hw : pawn.Color = Color.WhiteTeam
  · obtain ⟨ms, hms, hmem⟩ := mem_PawnMoves_white b row col pawn ho hw
    have hall : ∀ m ∈ ms, m.To = ⟨row + 2, col⟩ →
        (row = 1 ∧ isEmptyAt b (row + 2) col = true) ∧
          m = ⟨⟨row, col⟩, ⟨row + 2, col⟩, true, false⟩ := by
      intro m hm hto
      rcases (hmem m).1 hm with h | h | h | h | h | h <;> obtain ⟨hc, rfl⟩ := h
      · injection hto with h1 _; omega
      · injection hto with h1 _; omega
      · injection hto with h1 _; omega
      · exact ⟨hc, rfl⟩
      · injection hto with h1 _; omega
      · injection hto with h1 _; omega
    refine ⟨ms, hms, fun _ => ⟨⟨?_, ?_⟩, fun m hm hto => (hall m hm hto).2⟩,
      fun h => absurd hw h⟩
    · rintro ⟨m, hm, hto⟩
      exact (hall m hm hto).1
    · intro hc
      exact ⟨_, (hmem _).2 (Or.inr (Or.inr (Or.inr (Or.inl ⟨hc, rfl⟩)))), rfl⟩
  · obtain ⟨ms, hms, hmem⟩ := mem_PawnMoves_black b row col pawn ho hw
    have hall : ∀ m ∈ ms, m.To = ⟨row - 2, col⟩ →
        (row = 6 ∧ isEmptyAt b (row - 2) col = true) ∧
          m = ⟨⟨row, col⟩, ⟨row - 2, col⟩, true, false⟩ := by
      intro m hm hto
      rcases (hmem m).1 hm with h | h | h | h | h | h <;> obtain ⟨hc, rfl⟩ := h
      · injection hto with h1 _; omega
      · injection hto with h1 _; omega
      · injection hto with h1 _; omega
      · exact ⟨hc, rfl⟩
      · injection hto with h1 _; omega
      · injection hto with h1 _; omega
    refine ⟨ms, hms, fun h => absurd h hw,
      fun _ => ⟨⟨?_, ?_⟩, fun m hm hto => (hall m hm hto).2⟩⟩
    · rintro ⟨m, hm, hto⟩
      exact (hall m hm hto).1
    · intro hc
      exact ⟨_, (hmem _).2 (Or.inr (Or.inr (Or.inr (Or.inl ⟨hc, rfl⟩)))), rfl⟩

/-- Witness of C15: the lone white pawn at `(1, 4)`, whose double push to `(3, 4)` is
built with `Capture = true`. -/
theorem PawnMoves_double_push_witness :
    PawnMoves (emptyBoard.put 1 4 ⟨Rank.Pawn, Color.WhiteTeam, false⟩) 1 4
      = .ok [⟨⟨1, 4⟩, ⟨2, 4⟩, false, false⟩, ⟨⟨1, 4⟩, ⟨3, 4⟩, true, false⟩] ∧
    ∃ ms, PawnMoves (emptyBoard.put 1 4 ⟨Rank.Pawn, Color.WhiteTeam, false⟩) 1 4 = .ok ms ∧
      ((⟨Rank.Pawn, Color.WhiteTeam, false⟩ : Piece).Color = Color.WhiteTeam →
        ((∃ m ∈ ms, m.To = ⟨1 + 2, 4⟩)
            ↔ ((1 : Int) = 1 ∧
                isEmptyAt (emptyBoard.put 1 4 ⟨Rank.Pawn, Color.WhiteTeam, false⟩) (1 + 2) 4
                  = true)) ∧
        (∀ m ∈ ms, m.To = ⟨1 + 2, 4⟩ → m = ⟨⟨1, 4⟩, ⟨1 + 2, 4⟩, true, false⟩)) ∧
      ((⟨Rank.Pawn, Color.WhiteTeam, false⟩ : Piece).Color ≠ Color.WhiteTeam →
        ((∃ m ∈ ms, m.To = ⟨1 - 2, 4⟩)
            ↔ ((1 : Int) = 6 ∧
                isEmptyAt (emptyBoard.put 1 4 ⟨Rank.Pawn, Color.WhiteTeam, false⟩) (1 - 2) 4
                  = true)) ∧
        (∀ m ∈ ms, m.To = ⟨1 - 2, 4⟩ → m = ⟨⟨1, 4⟩, ⟨1 - 2, 4⟩, true, false⟩)) :=
  ⟨by decide,
   PawnMoves_double_push (emptyBoard.put 1 4 ⟨Rank.Pawn, Color.WhiteTeam, false⟩) 1 4
    ⟨Rank.Pawn, Color.WhiteTeam, false⟩ (by decide) rfl⟩

/-! ## C16: en passant of a pawn that is not white -/

/-- C16. For every board holding a pawn that is not white at an on-board square
`(row, col)` and every `d` in `{-1, +1}` with `col + d` in `[0, 8)`: if
`(row, col + d)` is flagged `EnPassantable` and the probed square
`(row - 1, col + d)` is on-board and `Empty`, the moves of `PawnMoves` contain
the `EnPassant` move to `(row + 1, col + d)`, two ranks away from the probed
square; every `EnPassant` move of such a pawn has destination row `row + 1`,
so none goes to the probed square. -/
theorem PawnMoves_black_enPassant (b : Board) (row col d : Int) (pawn : Piece)
    (ho : b.index row col = .ok pawn) (_hp : pawn.Rank = Rank.Pawn)
    (hw : pawn.Color ≠ Color.WhiteTeam) (hd : d = -1 ∨ d = 1)
    (h0 : 0 ≤ col + d) (h8 : col + d < 8) :
    ∃ ms, PawnMoves b row col = .ok ms ∧
      (flagAt b row (col + d) = true → isEmptyAt b (row - 1) (col + d) = true →
        ⟨⟨row, col⟩, ⟨row + 1, col + d⟩, false, true⟩ ∈ ms) ∧
      (∀ m ∈ ms, m.EnPassant = true → m.To.Row = row + 1) ∧
      (∀ m ∈ ms, m.EnPassant = true → m.To ≠ ⟨row - 1, col + d⟩) := by
  obtain ⟨ms, hms, hmem⟩ := mem_PawnMoves_black b row col pawn ho hw
  have hrow : ∀ m ∈ ms, m.EnPassant = true → m.To.Row = row + 1 := by
    intro m hm hep
    rcases (hmem m).1 hm with h | h | h | h | h | h <;> obtain ⟨_, rfl⟩ := h <;>
      first
        | rfl
        | cases hep
  refine ⟨ms, hms, ?_, hrow, ?_⟩
  · intro hflag hempty
    rw [hmem]
    rcases hd with rfl | rfl
    · refine Or.inr (Or.inr (Or.inr (Or.inr (Or.inr ⟨⟨by omega, ?_, ?_⟩, ?_⟩))))
      · simpa [sub_eq_add_neg] using hflag
      · simpa [sub_eq_add_neg] using hempty
      · simp [sub_eq_add_neg]
    · exact Or.inr (Or.inr (Or.inr (Or.inr (Or.inl ⟨⟨h8, hflag, hempty⟩, rfl⟩))))
  · intro m hm hep hto
    have := hrow m hm hep
    rw [hto] at this
    simp only at this
    omega

/-- Witness of C16: on `blackEnPassantBoard` the black pawn at `(3, 4)` has `(3, 5)`
flagged and the probed square `(2, 5)` empty; its moves are the push to
`(2, 4)` and an `EnPassant` move to `(4, 5)`. -/
theorem PawnMoves_black_enPassant_witness :
    PawnMoves blackEnPassantBoard 3 4
      = .ok [⟨⟨3, 4⟩, ⟨2, 4⟩, false, false⟩, ⟨⟨3, 4⟩, ⟨4, 5⟩, false, true⟩] ∧
    ∃ ms, PawnMoves blackEnPassantBoard 3 4 = .ok ms ∧
      (flagAt blackEnPassantBoard 3 (4 + 1) = true →
        isEmptyAt blackEnPassantBoard (3 - 1) (4 + 1) = true →
        ⟨⟨3, 4⟩, ⟨3 + 1, 4 + 1⟩, false, true⟩ ∈ ms) ∧
      (∀ m ∈ ms, m.EnPassant = true → m.To.Row = 3 + 1) ∧
      (∀ m ∈ ms, m.EnPassant = true → m.To ≠ ⟨3 - 1, 4 + 1⟩) :=
  ⟨by decide,
   PawnMoves_black_enPassant blackEnPassantBoard 3 4 1 ⟨Rank.Pawn, Color.BlackTeam, false⟩
    (by decide) rfl (by decide) (Or.inr rfl) (by decide) (by decide)⟩

/-! ## C17: the ray loop terminates and the lists are short -/

/-- C17. For every board, every on-board origin `(row, col)` and every direction
`(dr, dc) ≠ (0, 0)`, the loop of `lineMove` terminates within 8 iterations
(one probe each): a budget of 8 already yields the result, which every larger
budget yields too, and that result has at most 7 moves.  Consequently
`RookMoves` returns at most 14 moves, `BishopMoves` at most 13 and
`QueenMoves` at most 27. -/
theorem lineMove_bounds (b : Board) (row col : Int) (fuel : Nat) (hon : onBoard row col)
    (hf : 8 ≤ fuel) :
    (∀ dr dc : Int, (dr, dc) ≠ (0, 0) →
      ∃ ms, lineMove 8 b row col dr dc = .ok ms ∧ lineMove fuel b row col dr dc = .ok ms ∧
        ms.length ≤ 7) ∧
    (∃ ms, RookMoves fuel b row col = .ok ms ∧ ms.length ≤ 14) ∧
    (∃ ms, BishopMoves fuel b row col = .ok ms ∧ ms.length ≤ 13) ∧
    (∃ ms, QueenMoves fuel b row col = .ok ms ∧ ms.length ≤ 27) := by
  obtain ⟨origin, ho⟩ := index_of_onBoard b row col hon
  refine ⟨fun dr dc hd => ?_, ?_, ?_, ?_⟩
  · obtain ⟨ms, hms, hlen, _⟩ := lineMove_to_sublist b row col dr dc fuel hon hd hf
    exact ⟨ms, lineMove_budget b row col dr dc fuel ms hon hd hf hms, hms, hlen⟩
  · obtain ⟨ms, h, hlen, _⟩ := RookMoves_facts b row col fuel origin ho hf
    exact ⟨ms, h, hlen⟩
  · obtain ⟨ms, h, hlen, _⟩ := BishopMoves_facts b row col fuel origin ho hf
    exact ⟨ms, h, hlen⟩
  · obtain ⟨ms, h, hlen, _⟩ := QueenMoves_facts b row col fuel origin ho hf
    exact ⟨ms, h, hlen⟩

/-- Witness of C17: the rays from `(0, 0)` of `sampleBoard`, with a budget of 100. -/
theorem lineMove_bounds_witness :
    onBoard 0 0 ∧
    (∀ dr dc : Int, (dr, dc) ≠ (0, 0) →
      ∃ ms, lineMove 8 sampleBoard 0 0 dr dc = .ok ms ∧
        lineMove 100 sampleBoard 0 0 dr dc = .ok ms ∧ ms.length ≤ 7) ∧
    (∃ ms, RookMoves 100 sampleBoard 0 0 = .ok ms ∧ ms.length ≤ 14) ∧
    (∃ ms, BishopMoves 100 sampleBoard 0 0 = .ok ms ∧ ms.length ≤ 13) ∧
    (∃ ms, QueenMoves 100 sampleBoard 0 0 = .ok ms ∧ ms.length ≤ 27) :=
  ⟨by decide, lineMove_bounds sampleBoard 0 0 100 (by decide) (by decide)⟩

/-! ## C18: moves of the sliding and fixed-offset pieces respect occupancy -/

/-- C18. For every board, every on-board square `(row, col)` holding a piece, and
every move `m` returned there by `RookMoves`, `BishopMoves`, `QueenMoves`
(with an iteration budget of at least 8), `KnightMoves` or `KingMoves`:
`m.From = (row, col)`, `m.EnPassant = false`, the destination is not occupied
by a piece of the mover's colour, `m.Capture = true` if and only if the
destination holds a piece of another colour, and otherwise the destination
is `Empty` (this is `respectsOccupancy`). -/
theorem moves_respect_occupancy (b : Board) (row col : Int) (fuel : Nat) (piece : Piece)
    (ho : b.index row col = .ok piece) (_hp : piece.Rank ≠ Rank.Empty) (hf : 8 ≤ fuel) :
    (∃ ms, RookMoves fuel b row col = .ok ms ∧
      ∀ m ∈ ms, respectsOccupancy b piece.Color row col m) ∧
    (∃ ms, BishopMoves fuel b row col = .ok ms ∧
      ∀ m ∈ ms, respectsOccupancy b piece.Color row col m) ∧
    (∃ ms, QueenMoves fuel b row col = .ok ms ∧
      ∀ m ∈ ms, respectsOccupancy b piece.Color row col m) ∧
    (∃ ms, KnightMoves b row col = .ok ms ∧
      ∀ m ∈ ms, respectsOccupancy b piece.Color row col m) ∧
    (∃ ms, KingMoves b row col = .ok ms ∧
      ∀ m ∈ ms, respectsOccupancy b piece.Color row col m) := by
  refine ⟨?_, ?_, ?_, ?_, ?_⟩
  · obtain ⟨ms, h, _, _, hp⟩ := RookMoves_facts b row col fuel piece ho hf
    exact ⟨ms, h, hp⟩
  · obtain ⟨ms, h, _, _, hp⟩ := BishopMoves_facts b row col fuel piece ho hf
    exact ⟨ms, h, hp⟩
  · obtain ⟨ms, h, _, _, hp⟩ := QueenMoves_facts b row col fuel piece ho hf
    exact ⟨ms, h, hp⟩
  · exact ⟨_, KnightMoves_eq b row col piece ho, offsetMoves_respects b _ row col _⟩
  · exact ⟨_, KingMoves_eq b row col piece ho, offsetMoves_respects b _ row col _⟩

/-- Witness of C18: the white rook at `(0, 0)` of `sampleBoard`. -/
theorem moves_respect_occupancy_witness :
    (∃ ms, RookMoves 8 sampleBoard 0 0 = .ok ms ∧
      ∀ m ∈ ms, respectsOccupancy sampleBoard
        (⟨Rank.Rook, Color.WhiteTeam, false⟩ : Piece).Color 0 0 m) ∧
    (∃ ms, BishopMoves 8 sampleBoard 0 0 = .ok ms ∧
      ∀ m ∈ ms, respectsOccupancy sampleBoard
        (⟨Rank.Rook, Color.WhiteTeam, false⟩ : Piece).Color 0 0 m) ∧
    (∃ ms, QueenMoves 8 sampleBoard 0 0 = .ok ms ∧
      ∀ m ∈ ms, respectsOccupancy sampleBoard
        (⟨Rank.Rook, Color.WhiteTeam, false⟩ : Piece).Color 0 0 m) ∧
    (∃ ms, KnightMoves sampleBoard 0 0 = .ok ms ∧
      ∀ m ∈ ms, respectsOccupancy sampleBoard
        (⟨Rank.Rook, Color.WhiteTeam, false⟩ : Piece).Color 0 0 m) ∧
    (∃ ms, KingMoves sampleBoard 0 0 = .ok ms ∧
      ∀ m ∈ ms, respectsOccupancy sampleBoard
        (⟨Rank.Rook, Color.WhiteTeam, false⟩ : Piece).Color 0 0 m) :=
  moves_respect_occupancy sampleBoard 0 0 8 ⟨Rank.Rook, Color.WhiteTeam, false⟩ (by decide)
    (by decide) (by decide)

/-! ## C19: the double push jumps -/

/-- C19. The double push does not look at the square it passes over.  For every
board holding a white pawn at `(1, col)` with `(3, col)` on-board and `Empty`,
the moves of `PawnMoves` contain the move to `(3, col)`, whatever occupies
`(2, col)`; for every board holding a pawn that is not white at `(6, col)`
with `(4, col)` on-board and `Empty`, they contain the move to `(4, col)`,
whatever occupies `(5, col)`. -/
theorem PawnMoves_double_push_jumps (b : Board) (row col : Int) (pawn : Piece)
    (ho : b.index row col = .ok pawn) (_hp : pawn.Rank = Rank.Pawn) :
    ∃ ms, PawnMoves b row col = .ok ms ∧
      (pawn.Color = Color.WhiteTeam → row = 1 → isEmptyAt b 3 col = true →
        ⟨⟨1, col⟩, ⟨3, col⟩, true, false⟩ ∈ ms) ∧
      (pawn.Color ≠ Color.WhiteTeam → row = 6 → isEmptyAt b 4 col = true →
        ⟨⟨6, col⟩, ⟨4, col⟩, true, false⟩ ∈ ms) := by
  by_cases hw : pawn.Color = Color.WhiteTeam
  · obtain ⟨ms, hms, hmem⟩ := mem_PawnMoves_white b row col pawn ho hw
    refine ⟨ms, hms, fun _ hrow hempty => ?_, fun h => absurd hw h⟩
    subst hrow
    rw [hmem]
    exact Or.inr (Or.inr (Or.inr (Or.inl ⟨⟨rfl, hempty⟩, rfl⟩)))
  · obtain ⟨ms, hms, hmem⟩ := mem_PawnMoves_black b row col pawn ho hw
    refine ⟨ms, hms, fun h => absurd h hw, fun _ hrow hempty => ?_⟩
    subst hrow
    rw [hmem]
    exact Or.inr (Or.inr (Or.inr (Or.inl ⟨⟨rfl, hempty⟩, rfl⟩)))

/-- Witness of C19: on `jumpBoard` the white pawn at `(1, 4)` is blocked by a white
knight at `(2, 4)`: the single push is not generated, the double push over
the knight to `(3, 4)` is. -/
theorem PawnMoves_double_push_jumps_witness :
    isOwnAt jumpBoard Color.WhiteTeam 2 4 = true ∧
    PawnMoves jumpBoard 1 4 = .ok [⟨⟨1, 4⟩, ⟨3, 4⟩, true, false⟩] ∧
    ∃ ms, PawnMoves jumpBoard 1 4 = .ok ms ∧
      ((⟨Rank.Pawn, Color.WhiteTeam, false⟩ : Piece).Color = Color.WhiteTeam → (1 : Int) = 1 →
        isEmptyAt jumpBoard 3 4 = true → ⟨⟨1, 4⟩, ⟨3, 4⟩, true, false⟩ ∈ ms) ∧
      ((⟨Rank.Pawn, Color.WhiteTeam, false⟩ : Piece).Color ≠ Color.WhiteTeam → (1 : Int) = 6 →
        isEmptyAt jumpBoard 4 4 = true → ⟨⟨6, 4⟩, ⟨4, 4⟩, true, false⟩ ∈ ms) :=
  ⟨by decide, by decide,
   PawnMoves_double_push_jumps jumpBoard 1 4 ⟨Rank.Pawn, Color.WhiteTeam, false⟩
    (by decide) rfl⟩

/-! ## C20: no destination is listed twice -/

/-- C20. For every board, every on-board square `(row, col)` and every piece of one
of the six kinds, with an iteration budget of at least 8, the list returned by
`PossibleMoves` contains no two moves with the same destination.  The
reasons: the displacements of the rays of the eight directions are pairwise
distinct, so are the eight knight offsets and the eight king offsets, and no
square is both `Empty` and occupied by a piece of another colour, so the
diagonal capture and the en-passant move of a pawn to one square exclude each
other. -/
theorem PossibleMoves_destinations_nodup (fuel : Nat) (b : Board) (p : Piece) (row col : Int)
    (hon : onBoard row col) (hf : 8 ≤ fuel)
    (hp : p.Rank = Rank.King ∨ p.Rank = Rank.Queen ∨ p.Rank = Rank.Bishop ∨
      p.Rank = Rank.Knight ∨ p.Rank = Rank.Rook ∨ p.Rank = Rank.Pawn) :
    (∃ ms, PossibleMoves fuel b p row col = .ok ms ∧ (ms.map (fun m => m.To)).Nodup) ∧
    (rookRayOffsets ++ bishopRayOffsets).Nodup ∧ knightOffsets.Nodup ∧ kingOffsets.Nodup ∧
    (∀ (c : Color) (r k : Int), ¬ (isEnemyAt b c r k = true ∧ isEmptyAt b r k = true)) := by
  obtain ⟨origin, ho⟩ := index_of_onBoard b row col hon
  refine ⟨?_, queenRayOffsets_nodup, by decide, by decide, fun c r k h => ?_⟩
  · unfold PossibleMoves
    rcases hp with h | h | h | h | h | h <;> rw [h]
    · exact ⟨_, KingMoves_eq b row col origin ho,
        offsetMoves_to_nodup b _ row col kingOffsets (by decide)⟩
    · obtain ⟨ms, hms, _, hsub, _⟩ := QueenMoves_facts b row col fuel origin ho hf
      exact ⟨ms, hms, nodup_of_sublist_offsets row col _ _ queenRayOffsets_nodup hsub⟩
    · obtain ⟨ms, hms, _, hsub, _⟩ := BishopMoves_facts b row col fuel origin ho hf
      exact ⟨ms, hms, nodup_of_sublist_offsets row col _ _
        (List.Nodup.sublist (List.sublist_append_right _ _) queenRayOffsets_nodup) hsub⟩
    · exact ⟨_, KnightMoves_eq b row col origin ho,
        offsetMoves_to_nodup b _ row col knightOffsets (by decide)⟩
    · obtain ⟨ms, hms, _, hsub, _⟩ := RookMoves_facts b row col fuel origin ho hf
      exact ⟨ms, hms, nodup_of_sublist_offsets row col _ _
        (List.Nodup.sublist (List.sublist_append_left _ _) queenRayOffsets_nodup) hsub⟩
    · exact PawnMoves_to_nodup b row col hon
  · rw [isEnemyAt_not_empty b c r k h.1] at h
    exact absurd h.2 (by simp)

/-- Witness of C20: the white pawn at `(4, 4)` of `captureBoard`, whose right
neighbour is flagged while `(5, 5)` holds an enemy piece. -/
theorem PossibleMoves_destinations_nodup_witness :
    onBoard 4 4 ∧
    (∃ ms, PossibleMoves 8 captureBoard ⟨Rank.Pawn, Color.WhiteTeam, false⟩ 4 4 = .ok ms ∧
      (ms.map (fun m => m.To)).Nodup) ∧
    (rookRayOffsets ++ bishopRayOffsets).Nodup ∧ knightOffsets.Nodup ∧ kingOffsets.Nodup ∧
    (∀ (c : Color) (r k : Int),
      ¬ (isEnemyAt captureBoard c r k = true ∧ isEmptyAt captureBoard r k = true)) :=
  ⟨by decide,
   PossibleMoves_destinations_nodup 8 captureBoard ⟨Rank.Pawn, Color.WhiteTeam, false⟩ 4 4
    (by decide) (by decide) (Or.inr (Or.inr (Or.inr (Or.inr (Or.inr rfl)))))⟩

end Chess
